import Mathlib

/-!
Verification of core components of the huub LCG constraint solver
(`crates/huub/src`).  Each Rust data structure and function that the
verified properties depend on is translated into an executable Lean
definition; theorems about those definitions settle the properties.

Conventions used throughout the embedding:
* `pindakaas::Var` is a dense index, modelled as `Nat`; `pindakaas::Lit`
  is a variable plus a negation flag.
* `IntVal` (Rust `i64`) is modelled as `Int`; the solver never relies on
  wrap-around arithmetic for these values.
* Rust methods that take `&mut self` become functions returning the
  updated value; fresh oracle-variable allocation is modelled by
  threading a counter.
* Code paths that panic in Rust (index out of bounds, `unwrap` on
  `None`, `unreachable!`) are given harmless default results; every
  theorem below only exercises the functions inside the preconditions
  under which the Rust code is defined.
-/

/-- A Boolean literal of the oracle (`pindakaas::Lit`): a variable index
together with a negation flag.  `lit.var()` is `var`, `lit.is_negated()`
is `neg`. -/
structure RawLit where
  var : Nat
  neg : Bool
deriving DecidableEq

/-- Literal negation (the `!` operator on `pindakaas::Lit`). -/
def RawLit.negate (l : RawLit) : RawLit :=
  ⟨l.var, !l.neg⟩

/-- The internal representation of a Boolean view
(`solver/view.rs`, `BoolViewInner`): an oracle literal or a constant. -/
inductive BoolViewI where
  | lit (l : RawLit)
  | const (b : Bool)
deriving DecidableEq

/-- Negation of a Boolean view (`Not for BoolView` in `solver/view.rs`). -/
def BoolViewI.not : BoolViewI → BoolViewI
  | .lit l => .lit l.negate
  | .const b => .const (!b)

/-- The meaning of a literal for an integer variable `x`
(`solver/engine/int_var.rs`, `LitMeaning`): `x = i`, `x ≠ i`, `x ≥ i` or
`x < i`. -/
inductive LitMeaning where
  | eq (i : Int)
  | notEq (i : Int)
  | greaterEq (i : Int)
  | less (i : Int)
deriving DecidableEq

/-- Negation of a literal meaning (`Not for LitMeaning`). -/
def LitMeaning.negate : LitMeaning → LitMeaning
  | .eq i => .notEq i
  | .notEq i => .eq i
  | .greaterEq i => .less i
  | .less i => .greaterEq i

/-! ## Priority queue (`solver/queue.rs`) -/

/-- The six priority levels at which propagators can be scheduled
(`PriorityLevel`).  `Lowest` is the least and `Immediate` the most
important level; `as usize` is `toIndex` below. -/
inductive PriorityLevel where
  | Lowest
  | Low
  | Medium
  | High
  | Highest
  | Immediate
deriving DecidableEq

/-- The numeric value of a priority level (`priority as usize`). -/
def PriorityLevel.toIndex : PriorityLevel → Nat
  | .Lowest => 0
  | .Low => 1
  | .Medium => 2
  | .High => 3
  | .Highest => 4
  | .Immediate => 5

/-- The priority queue used by the engine to schedule propagators
(`PriorityQueue`): one vector of elements per priority level, in the
order `Lowest .. Immediate`. -/
structure PriorityQueue (E : Type) where
  storage : List (List E)
deriving DecidableEq

/-- The `Default` instance of `PriorityQueue`: six empty queues. -/
def PriorityQueue.empty (E : Type) : PriorityQueue E :=
  ⟨[[], [], [], [], [], []]⟩

/-- `PriorityQueue::insert`: pushes the element at the end of the vector
of its priority level. -/
def PriorityQueue.insert (q : PriorityQueue E) (p : PriorityLevel) (e : E) : PriorityQueue E :=
  ⟨q.storage.set p.toIndex (q.storage.getD p.toIndex [] ++ [e])⟩

/-- Helper for `PriorityQueue::pop`: the Rust code iterates over
`storage.iter_mut().rev()` (most important level first) and calls
`Vec::pop`, which removes the LAST element, on the first non-empty
vector.  Recursion on the list resolves the tail (higher levels)
first, matching `.rev()`. -/
def PriorityQueue.popAux : List (List E) → Option E × List (List E)
  | [] => (none, [])
  | q :: rest =>
    match PriorityQueue.popAux rest with
    | (some e, rest2) => (some e, q :: rest2)
    | (none, _) =>
      if q.isEmpty then (none, q :: rest)
      else (q.getLast?, q.dropLast :: rest)

/-- `PriorityQueue::pop`: removes and returns an element of the highest
non-empty priority level. -/
def PriorityQueue.pop (q : PriorityQueue E) : Option E × PriorityQueue E :=
  let (e, s) := PriorityQueue.popAux q.storage
  (e, ⟨s⟩)

/-! ## Reasons (`propagator.rs`) -/

/-- A reason for a propagated change (`propagator.rs`, `Reason`): a
deferred propagator token, an owned conjunction, or a single literal. -/
inductive Reason where
  | lazy (prop : Nat) (data : Nat)
  | eager (lits : List RawLit)
  | simple (l : RawLit)
deriving DecidableEq

/-- The literal collection inside `Reason::from_iter`:
`Result::from_iter` over `filter_map` keeps literal views, skips
constant-`true` views, and fails with `Err(false)` at a
constant-`false` view. -/
def reasonLits : List BoolViewI → Except Bool (List RawLit)
  | [] => .ok []
  | v :: rest =>
    match v with
    | .lit l => (reasonLits rest).map (fun ls => l :: ls)
    | .const false => .error false
    | .const true => reasonLits rest

/-- `Reason::from_iter`: collect a conjunction of Boolean views into a
`Reason`, or report that the reason is trivially `true`/`false`. -/
def Reason.fromIter (views : List BoolViewI) : Except Bool Reason :=
  match reasonLits views with
  | .error b => .error b
  | .ok lits =>
    match lits with
    | [] => .error true
    | [l] => .ok (.simple l)
    | _ => .ok (.eager lits)

/-- A conflict (`propagator.rs`, `Conflict`): the literal that could not
be propagated (none for a root conflict) and the reason. -/
structure Conflict where
  subject : Option RawLit
  reason : Reason
deriving DecidableEq

/-- `Conflict::new`: builds a conflict from a reason builder result.  A
trivially-true reason (`Err(true)`) with a subject is turned into a
root conflict whose reason is the negated subject.  The Rust code
panics on `Err(false)` (`unreachable!`) and on an empty conflict;
those cases are modelled as `none`. -/
def Conflict.new (subject : Option RawLit) (reason : Except Bool Reason) : Option Conflict :=
  match reason with
  | .ok r => some ⟨subject, r⟩
  | .error true =>
    match subject with
    | some s => some ⟨none, .simple s.negate⟩
    | none => none
  | .error false => none

/-! ## Linear transformations (`helpers.rs`, `helpers/linear_transform.rs`) -/

/-- `helpers::div_ceil`: integer division rounding towards positive
infinity.  Rust `/` and `%` on `i64` truncate towards zero, which is
`Int.tdiv` and `Int.tmod`.  `b` is nonzero at every use site
(`NonZeroIntVal`). -/
def divCeil (a b : Int) : Int :=
  let d := a.tdiv b
  let r := a.tmod b
  if (0 < r ∧ 0 < b) ∨ (r < 0 ∧ b < 0) then d + 1 else d

/-- An integer linear transformation `x ↦ scale * x + offset`
(`LinearTransform`).  `scale` is nonzero (`NonZeroIntVal`); theorems
carry this as a hypothesis where it matters. -/
structure LinearTransform where
  scale : Int
  offset : Int
deriving DecidableEq

/-- `LinearTransform::positive_scale`. -/
def LinearTransform.positiveScale (t : LinearTransform) : Bool :=
  0 < t.scale

/-- `Neg for LinearTransform`: negates scale and offset. -/
def LinearTransform.neg (t : LinearTransform) : LinearTransform :=
  ⟨-t.scale, -t.offset⟩

/-- `LinearTransform::transform`: `val * scale + offset`. -/
def LinearTransform.transform (t : LinearTransform) (val : Int) : Int :=
  val * t.scale + t.offset

/-- `LinearTransform::rev_remains_integer`. -/
def LinearTransform.revRemainsInteger (t : LinearTransform) (val : Int) : Bool :=
  (val - t.offset).tmod t.scale = 0

/-- `LinearTransform::rev_transform`. -/
def LinearTransform.revTransform (t : LinearTransform) (val : Int) : Int :=
  (val - t.offset).tdiv t.scale

/-- `LinearTransform::transform_lit`: apply the transformation to a
literal meaning.  For a negative scale the code first rewrites
`GreaterEq(i)` to `Less(-i+1)` (and dually) and negates the
transformer; `Eq`/`NotEq` keep the original transformer. -/
def LinearTransform.transformLit (t : LinearTransform) (lit : LitMeaning) : LitMeaning :=
  let p : LitMeaning × LinearTransform :=
    if t.positiveScale then (lit, t)
    else
      match lit with
      | .greaterEq i => (.less (-i + 1), t.neg)
      | .less i => (.greaterEq (-i + 1), t.neg)
      | l => (l, t)
  match p.1 with
  | .eq v => .eq (p.2.transform v)
  | .notEq v => .notEq (p.2.transform v)
  | .greaterEq v => .greaterEq (p.2.transform v)
  | .less v => .less (p.2.transform v)

/-- `LinearTransform::rev_transform_lit`: reverse the transformation on
a literal meaning, using ceiling division for `GreaterEq`/`Less` and
reporting `Err` when an `Eq`/`NotEq` value does not lie on the scaled
lattice. -/
def LinearTransform.revTransformLit (t : LinearTransform) (lit : LitMeaning) :
    Except Bool LitMeaning :=
  let p : LitMeaning × LinearTransform :=
    if t.positiveScale then (lit, t)
    else
      match lit with
      | .greaterEq i => (.less (-i + 1), t.neg)
      | .less i => (.greaterEq (-i + 1), t.neg)
      | l => (l, t)
  match p.1 with
  | .eq i =>
    if p.2.revRemainsInteger i then .ok (.eq (p.2.revTransform i)) else .error false
  | .notEq i =>
    if p.2.revRemainsInteger i then .ok (.notEq (p.2.revTransform i)) else .error true
  | .greaterEq i => .ok (.greaterEq (divCeil (i - p.2.offset) p.2.scale))
  | .less i => .ok (.less (divCeil (i - p.2.offset) p.2.scale))

/-! ## Search driver (`solver.rs`, `Solver::solve_assuming`) -/

/-- The result returned by the oracle's search
(`SatSolveResult`, without the payloads that the driver only passes
through to callbacks). -/
inductive SatSolveResult where
  | satisfied
  | unsatisfiable
  | unknown
deriving DecidableEq

/-- The result of a solve call (`SolveResult`). -/
inductive SolveResult where
  | satisfied
  | unsatisfiable
  | complete
  | unknown
deriving DecidableEq

/-- Assumption pre-processing in `Solver::solve_assuming`:
`filter_map` keeps oracle literals, drops constant-`true` views, and
fails (`ReformulationError::TrivialUnsatisfiable`, modelled as `.error
()`) at a constant-`false` view. -/
def processAssumptions : List BoolViewI → Except Unit (List RawLit)
  | [] => .ok []
  | v :: rest =>
    match v with
    | .lit l => (processAssumptions rest).map (fun ls => l :: ls)
    | .const true => processAssumptions rest
    | .const false => .error ()

/-- `Solver::solve_assuming`, with the oracle's search modelled as a
function from the translated assumption literals to a search result.
When assumption processing fails the driver returns `Unsatisfiable`
without consulting the oracle. -/
def solveAssuming (oracle : List RawLit → SatSolveResult) (assumptions : List BoolViewI) :
    SolveResult :=
  match processAssumptions assumptions with
  | .error _ => .unsatisfiable
  | .ok lits =>
    match oracle lits with
    | .satisfied => .satisfied
    | .unsatisfiable => .unsatisfiable
    | .unknown => .unknown

/-! ## Theorems about the priority queue (claim C2) -/

/-- All-empty levels make `popAux` return nothing and leave the storage
unchanged. -/
theorem PriorityQueue.popAux_all_empty {E : Type} (s : List (List E))
    (h : ∀ m ∈ s, m = []) : PriorityQueue.popAux s = (none, s) := by
  induction s with
  | nil => rfl
  | cons q rest ih =>
    have hq : q = [] := h q (by simp)
    have hrest : ∀ m ∈ rest, m = [] := fun m hm => h m (by simp [hm])
    simp [PriorityQueue.popAux, ih hrest, hq]

/-- Splitting form of `popAux`: if every level after `l` is empty and
`l` is non-empty, `popAux` removes and returns the last element of
`l`. -/
theorem PriorityQueue.popAux_split {E : Type} (pre post : List (List E)) (l : List E)
    (hne : l ≠ []) (hpost : ∀ m ∈ post, m = []) :
    PriorityQueue.popAux (pre ++ l :: post) = (l.getLast?, pre ++ l.dropLast :: post) := by
  induction pre with
  | nil =>
    simp only [List.nil_append, PriorityQueue.popAux,
      PriorityQueue.popAux_all_empty post hpost]
    simp [List.isEmpty_iff, hne]
  | cons x pre ih =>
    obtain ⟨e, he⟩ : ∃ e, l.getLast? = some e := by
      cases hl : l.getLast? with
      | none => exact absurd (List.getLast?_eq_none_iff.mp hl) hne
      | some e => exact ⟨e, rfl⟩
    have step : PriorityQueue.popAux ((x :: pre) ++ l :: post) =
        match PriorityQueue.popAux (pre ++ l :: post) with
        | (some e, rest2) => (some e, x :: rest2)
        | (none, _) =>
          if x.isEmpty then (none, x :: (pre ++ l :: post))
          else (x.getLast?, x.dropLast :: (pre ++ l :: post)) := rfl
    rw [step, ih, he]
    rfl

/-- Claim C2 (amended): `PriorityQueue::pop` removes and returns an
element of the highest non-empty priority level (levels later in the
storage are more important), and among elements of that level it
returns the MOST RECENTLY inserted one (the last of the vector, since
`insert` pushes at the end): same-level order is LIFO, not FIFO. -/
theorem priorityQueue_pop_highest_lifo {E : Type} (q : PriorityQueue E)
    (pre post : List (List E)) (l : List E)
    (hsplit : q.storage = pre ++ l :: post)
    (hne : l ≠ [])
    (hpost : ∀ m ∈ post, m = []) :
    q.pop = (l.getLast?, ⟨pre ++ l.dropLast :: post⟩) := by
  simp [PriorityQueue.pop, hsplit, PriorityQueue.popAux_split pre post l hne hpost]

/-- Witness for `priorityQueue_pop_highest_lifo`: inserting `0` then
`1` at level `Low` and popping yields `1` and leaves `0` queued. -/
theorem priorityQueue_pop_highest_lifo_witness :
    (((PriorityQueue.empty Nat).insert .Low 0).insert .Low 1).pop =
      (some 1, ⟨[[], [0], [], [], [], []]⟩) := by
  have h := priorityQueue_pop_highest_lifo
    (((PriorityQueue.empty Nat).insert .Low 0).insert .Low 1)
    [[]] [[], [], [], []] [0, 1] (by decide) (by decide) (by decide)
  simpa using h

/-- Claim C2, counterexample to the claim as stated: with two elements
inserted at the same priority level, `pop` returns the one inserted
LATER, so the earlier-inserted element is not popped earlier. -/
theorem priorityQueue_pop_not_fifo :
    (((PriorityQueue.empty Nat).insert .Low 0).insert .Low 1).pop.1 = some 1 ∧
      (some 1 : Option Nat) ≠ some 0 := by
  decide

/-! ## Theorems about reasons (claim C3) -/

/-- The literal-backed views of a list of Boolean views, in order. -/
def boolViewsLits (views : List BoolViewI) : List RawLit :=
  views.filterMap (fun v =>
    match v with
    | .lit l => some l
    | .const _ => none)

/-- Characterization of the literal collection in `Reason::from_iter`:
it fails with `Err(false)` exactly when some view is constant `false`,
and otherwise keeps exactly the literal-backed views. -/
theorem reasonLits_eq (views : List BoolViewI) :
    reasonLits views =
      if BoolViewI.const false ∈ views then .error false
      else .ok (boolViewsLits views) := by
  induction views with
  | nil => rfl
  | cons v rest ih =>
    cases v with
    | lit l =>
      by_cases hf : BoolViewI.const false ∈ rest <;>
        simp [reasonLits, boolViewsLits, ih, hf, Except.map]
    | const b =>
      cases b with
      | false => simp [reasonLits]
      | true =>
        by_cases hf : BoolViewI.const false ∈ rest <;>
          simp [reasonLits, boolViewsLits, ih, hf]

/-- Claim C3 (amended): in `Reason::from_iter`, constant-`true` views
are dropped; a constant-`false` view makes the result `Err(false)`
(not `Err(true)`); when no constant-`false` view occurs, the result is
built from the literal-backed views, and if none remain the result is
`Err(true)` — the representation that the change is unconditional —
which `Conflict::new` turns into a root-level conflict (subject
`None`, reason the negated subject literal). -/
theorem reason_from_iter_spec :
    ∀ (views : List BoolViewI),
      (Reason.fromIter views =
        if BoolViewI.const false ∈ views then .error false
        else
          match boolViewsLits views with
          | [] => .error true
          | [l] => .ok (.simple l)
          | ls => .ok (.eager ls)) ∧
      (∀ s : RawLit,
        Conflict.new (some s) (.error true) = some ⟨none, .simple s.negate⟩) := by
  intro views
  refine ⟨?_, fun s => rfl⟩
  by_cases hf : BoolViewI.const false ∈ views
  · simp [Reason.fromIter, reasonLits_eq, hf]
  · rcases hl : boolViewsLits views with - | ⟨a, - | ⟨b, rest⟩⟩ <;>
      simp [Reason.fromIter, reasonLits_eq, hf, hl]

/-- Claim C3, counterexample to the claim as stated: a constant-`false`
view yields `Err(false)`, not `Err(true)`. -/
theorem reason_from_iter_const_false :
    Reason.fromIter [BoolViewI.const false] = .error false ∧
      (Except.error false : Except Bool Reason) ≠ .error true :=
  ⟨rfl, by simp⟩

/-! ## Theorems about linear transformations (claim C6) -/

/-- For a positive scale the round-trip law does hold: applying
`transform_lit` and then `rev_transform_lit` to a `GreaterEq` or
`Less` meaning is the identity. -/
theorem revTransformLit_transformLit_pos (t : LinearTransform) (h : 0 < t.scale) (i : Int) :
    t.revTransformLit (t.transformLit (.greaterEq i)) = .ok (.greaterEq i) ∧
      t.revTransformLit (t.transformLit (.less i)) = .ok (.less i) := by
  have hs : t.scale ≠ 0 := ne_of_gt h
  have hpos : t.positiveScale = true := by
    simp [LinearTransform.positiveScale, h]
  have hdiv : ∀ j : Int, divCeil (j * t.scale) t.scale = j := by
    intro j
    simp only [divCeil]
    rw [Int.mul_tdiv_cancel _ hs, Int.mul_tmod_left]
    simp
  constructor <;>
    simp [LinearTransform.transformLit, LinearTransform.revTransformLit, hpos,
      LinearTransform.transform, add_sub_cancel_right, hdiv]

/-- Claim C6 (code bug): for the transformation with scale `-1` and
offset `1`, the round trip on `GreaterEq(0)` returns `GreaterEq(2)`
instead of `GreaterEq(0)`: the negative-scale branch of
`transform_lit`/`rev_transform_lit` negates the offset along with the
scale, so `rev_transform_lit ∘ transform_lit` is not the identity. -/
theorem revTransformLit_transformLit_neg_scale_fails :
    LinearTransform.revTransformLit ⟨-1, 1⟩
        (LinearTransform.transformLit ⟨-1, 1⟩ (.greaterEq 0)) = .ok (.greaterEq 2) ∧
      (Except.ok (LitMeaning.greaterEq 2) : Except Bool LitMeaning) ≠
        .ok (.greaterEq 0) :=
  ⟨by rfl, by simp⟩

/-! ## Theorems about the search driver (claim C9) -/

/-- Characterization of assumption pre-processing: it fails exactly
when some assumption is constant `false`, and otherwise keeps exactly
the literal-backed assumptions (dropping constant-`true` ones). -/
theorem processAssumptions_eq (views : List BoolViewI) :
    processAssumptions views =
      if BoolViewI.const false ∈ views then .error ()
      else .ok (boolViewsLits views) := by
  induction views with
  | nil => rfl
  | cons v rest ih =>
    cases v with
    | lit l =>
      by_cases hf : BoolViewI.const false ∈ rest <;>
        simp [processAssumptions, boolViewsLits, ih, hf, Except.map]
    | const b =>
      cases b with
      | false => simp [processAssumptions]
      | true =>
        by_cases hf : BoolViewI.const false ∈ rest <;>
          simp [processAssumptions, boolViewsLits, ih, hf]

/-- Claim C9: `solve_assuming` returns `Unsatisfiable` without
consulting the oracle's search whenever any assumption is the constant
`false` Boolean view (the result is the same for every oracle), and
otherwise the assumption list passed to the oracle consists of exactly
the literal-backed assumptions, with constant-`true` assumptions
dropped. -/
theorem solve_assuming_const_false :
    ∀ (assumptions : List BoolViewI),
      (BoolViewI.const false ∈ assumptions →
        ∀ oracle, solveAssuming oracle assumptions = .unsatisfiable) ∧
      (BoolViewI.const false ∉ assumptions →
        processAssumptions assumptions = .ok (boolViewsLits assumptions) ∧
          ∀ oracle, solveAssuming oracle assumptions =
            match oracle (boolViewsLits assumptions) with
            | .satisfied => .satisfied
            | .unsatisfiable => .unsatisfiable
            | .unknown => .unknown) := by
  intro assumptions
  constructor
  · intro hf oracle
    simp [solveAssuming, processAssumptions_eq, hf]
  · intro hf
    refine ⟨by simp [processAssumptions_eq, hf], fun oracle => ?_⟩
    simp [solveAssuming, processAssumptions_eq, hf]

/-- Witness for `solve_assuming_const_false`: a constant-`false`
assumption short-circuits even an oracle that always claims
satisfiability, and processing drops a constant-`true` assumption. -/
theorem solve_assuming_const_false_witness :
    solveAssuming (fun _ => .satisfied) [BoolViewI.const false] = .unsatisfiable ∧
      processAssumptions [BoolViewI.lit ⟨1, false⟩, BoolViewI.const true] =
        .ok [⟨1, false⟩] :=
  ⟨(solve_assuming_const_false [BoolViewI.const false]).1 (by decide) _,
   ((solve_assuming_const_false [BoolViewI.lit ⟨1, false⟩, BoolViewI.const true]).2
      (by decide)).1⟩

/-! ## Integer events (`solver/engine.rs`, `State::determine_int_event`) -/

/-- The kinds of change events of an integer variable (`IntEvent`). -/
inductive IntEvent where
  | fixed
  | lowerBound
  | upperBound
  | domain
deriving DecidableEq

/-- `IntVar::tighten_upper_bound` (`solver/engine/int_var.rs`): tighten
a candidate upper bound `val` to the largest domain value that is at
most `val`.  The domain is the ascending list of inclusive ranges of
the variable's initial domain (`RangeList`).  With a single range the
value is returned unchanged; otherwise the last range starting at or
below `val` caps it.  The Rust code `unwrap`s when no range qualifies;
that case is modelled as returning `val`. -/
def tightenUpperBound (domain : List (Int × Int)) (val : Int) : Int :=
  if domain.length = 1 then val
  else
    match domain.reverse.find? (fun r => decide (r.1 ≤ val)) with
    | some r => if r.2 < val then r.2 else val
    | none => val

/-- The core of `State::determine_int_event`: given the variable's
initial domain, its current bounds `lb ≤ ub` and the meaning of the
newly assigned literal, decide which event (if any) is produced and
what the bounds become.  `notify_lower_bound`/`notify_upper_bound`
update the trailed bounds to exactly the returned values; the `None`
cases leave both bounds untouched. -/
def determineIntEvent (domain : List (Int × Int)) (lb ub : Int) (meaning : LitMeaning) :
    Option IntEvent × Int × Int :=
  match meaning with
  | .eq i =>
    if i = lb ∨ i = ub then (none, lb, ub)
    else if i < lb ∨ ub < i then (none, lb, ub)
    else (some .fixed, i, i)
  | .notEq i =>
    if i < lb ∨ ub < i then (none, lb, ub) else (some .domain, lb, ub)
  | .greaterEq newLb =>
    if newLb ≤ lb then (none, lb, ub)
    else (some (if newLb = ub then .fixed else .lowerBound), newLb, ub)
  | .less i =>
    let newUb := tightenUpperBound domain (i - 1)
    if ub ≤ newUb then (none, lb, ub)
    else (some (if newUb = lb then .fixed else .upperBound), lb, newUb)

/-- Claim C8: an `Eq(i)` notification with `lb < i < ub` fixes both
bounds to `i` and produces a `Fixed` event; with `i` equal to a bound
or outside `[lb, ub]` it is a no-op (no event, bounds unchanged).  A
`GreaterEq`/`Less` notification whose resulting new bound equals the
opposite bound produces `Fixed` instead of `LowerBound`/`UpperBound`. -/
theorem determine_int_event_spec (domain : List (Int × Int)) (lb ub i : Int) :
    (lb < i → i < ub →
      determineIntEvent domain lb ub (.eq i) = (some .fixed, i, i)) ∧
    (i = lb ∨ i = ub ∨ i < lb ∨ ub < i →
      determineIntEvent domain lb ub (.eq i) = (none, lb, ub)) ∧
    (lb < i →
      determineIntEvent domain lb ub (.greaterEq i) =
        (some (if i = ub then .fixed else .lowerBound), i, ub)) ∧
    (tightenUpperBound domain (i - 1) < ub →
      determineIntEvent domain lb ub (.less i) =
        (some (if tightenUpperBound domain (i - 1) = lb then .fixed else .upperBound),
          lb, tightenUpperBound domain (i - 1))) := by
  refine ⟨?_, ?_, ?_, ?_⟩
  · intro h1 h2
    have hne : ¬(i = lb ∨ i = ub) := by omega
    have hout : ¬(i < lb ∨ ub < i) := by omega
    simp [determineIntEvent, hne, hout]
  · intro h
    rcases h with h | h | h | h <;> simp [determineIntEvent] <;> omega
  · intro h
    have : ¬ i ≤ lb := by omega
    simp [determineIntEvent, this]
  · intro h
    have : ¬ ub ≤ tightenUpperBound domain (i - 1) := by omega
    simp [determineIntEvent, this]

/-- Witness for `determine_int_event_spec` on the domain `1..=4`:
`Eq(2)` fixes the bounds to `2`; `Eq(1)` is a no-op; `GreaterEq(4)`
emits `Fixed` (not `LowerBound`); `Less(2)` tightens the upper bound
to the lower bound and emits `Fixed` (not `UpperBound`). -/
theorem determine_int_event_spec_witness :
    determineIntEvent [(1, 4)] 1 4 (.eq 2) = (some .fixed, 2, 2) ∧
      determineIntEvent [(1, 4)] 1 4 (.eq 1) = (none, 1, 4) ∧
      determineIntEvent [(1, 4)] 1 4 (.greaterEq 4) = (some .fixed, 4, 4) ∧
      determineIntEvent [(1, 4)] 1 4 (.less 2) = (some .fixed, 1, 1) := by
  have h2 := determine_int_event_spec [(1, 4)] 1 4 2
  have h1 := determine_int_event_spec [(1, 4)] 1 4 1
  have h4 := determine_int_event_spec [(1, 4)] 1 4 4
  refine ⟨h2.1 (by decide) (by decide), h1.2.1 (by decide), ?_, ?_⟩
  · have := h4.2.2.1 (by decide)
    simpa using this
  · have := h2.2.2.2 (by decide)
    simpa using this

/-! ## Eager encoding consistency clauses (`IntVar::new_in`) -/

/-- Whether a valuation of the oracle variables satisfies a literal. -/
def litSat (w : Nat → Bool) (l : RawLit) : Bool :=
  if l.neg then !(w l.var) else w l.var

/-- Whether a valuation satisfies a clause (some literal is true). -/
def clauseSat (w : Nat → Bool) (c : List RawLit) : Bool :=
  c.any (litSat w)

/-- Whether a valuation satisfies every clause of a list. -/
def satisfiesAll (w : Nat → Bool) (cs : List (List RawLit)) : Prop :=
  ∀ c ∈ cs, clauseSat w c = true

/-- The consistency clauses added by `IntVar::new_in` when the order
encoding is eager: for every consecutive pair `(ord_i, ord_j)` of
eager order variables (`tuple_windows`) the clause `¬ord_i ∨ ord_j`;
when the direct encoding is eager as well (`de`), the matching direct
variable `eq_i` additionally contributes `¬eq_i ∨ ¬ord_i`,
`¬eq_i ∨ ord_j` and `eq_i ∨ ord_i ∨ ¬ord_j`.  The Rust iterator
`unwrap`s when the direct variables run out; that unreachable case is
modelled by emitting only the order clause. -/
def newInConsistencyClauses : List Nat → List Nat → Bool → List (List RawLit)
  | o1 :: o2 :: rest, dirs, de =>
    [⟨o1, true⟩, ⟨o2, false⟩] ::
      (if de then
        match dirs with
        | e1 :: dtail =>
          [⟨e1, true⟩, ⟨o1, true⟩] :: [⟨e1, true⟩, ⟨o2, false⟩] ::
            [⟨e1, false⟩, ⟨o1, false⟩, ⟨o2, true⟩] ::
              newInConsistencyClauses (o2 :: rest) dtail true
        | [] => newInConsistencyClauses (o2 :: rest) [] true
      else newInConsistencyClauses (o2 :: rest) dirs false)
  | _, _, _ => []

/-- A binary clause `¬a ∨ b` says `a → b`. -/
theorem clauseSat_imp_pos (w : Nat → Bool) (a b : Nat) :
    clauseSat w [⟨a, true⟩, ⟨b, false⟩] = true ↔ (w a = true → w b = true) := by
  cases ha : w a <;> cases hb : w b <;> simp [clauseSat, litSat, ha, hb]

/-- A binary clause `¬a ∨ ¬b` says `a → ¬b`. -/
theorem clauseSat_imp_neg (w : Nat → Bool) (a b : Nat) :
    clauseSat w [⟨a, true⟩, ⟨b, true⟩] = true ↔ (w a = true → w b = false) := by
  cases ha : w a <;> cases hb : w b <;> simp [clauseSat, litSat, ha, hb]

/-- A ternary clause `e ∨ a ∨ ¬b` says `¬e → a ∨ ¬b`. -/
theorem clauseSat_ternary (w : Nat → Bool) (e a b : Nat) :
    clauseSat w [⟨e, false⟩, ⟨a, false⟩, ⟨b, true⟩] = true ↔
      (w e = false → w a = true ∨ w b = false) := by
  cases he : w e <;> cases ha : w a <;> cases hb : w b <;>
    simp [clauseSat, litSat, he, ha, hb]

/-- Order-only part: the clauses emitted without a direct encoding are
satisfied exactly when every consecutive pair of order variables
satisfies the implication `L_i → L_{i+1}`. -/
theorem satisfiesAll_order_clauses (w : Nat → Bool) :
    ∀ (ords dirs : List Nat),
      satisfiesAll w (newInConsistencyClauses ords dirs false) ↔
        List.Chain' (fun a b => w a = true → w b = true) ords := by
  intro ords
  induction ords with
  | nil => intro dirs; simp [newInConsistencyClauses, satisfiesAll]
  | cons o1 tail ih =>
    intro dirs
    cases tail with
    | nil => simp [newInConsistencyClauses, satisfiesAll]
    | cons o2 rest =>
      simp only [newInConsistencyClauses, if_neg (Bool.false_ne_true)]
      rw [List.chain'_cons]
      constructor
      · intro h
        have h1 := h [⟨o1, true⟩, ⟨o2, false⟩] (by simp)
        have h2 : satisfiesAll w (newInConsistencyClauses (o2 :: rest) dirs false) :=
          fun c hc => h c (by simp [hc])
        exact ⟨(clauseSat_imp_pos w o1 o2).mp h1, (ih dirs).mp h2⟩
      · rintro ⟨h1, h2⟩ c hc
        rcases List.mem_cons.mp hc with rfl | hc
        · exact (clauseSat_imp_pos w o1 o2).mpr h1
        · exact (ih dirs).mpr h2 c hc

/-- Splitting `satisfiesAll` over a cons. -/
theorem satisfiesAll_cons (w : Nat → Bool) (c : List RawLit) (cs : List (List RawLit)) :
    satisfiesAll w (c :: cs) ↔ clauseSat w c = true ∧ satisfiesAll w cs := by
  simp [satisfiesAll]

/-- Direct-encoding part: with an eager direct encoding whose variable
count is one less than the order variable count (`|domain|-2` versus
`|domain|-1`), the emitted clauses are satisfied exactly when the
order implications hold and, for every interior value, the three
direct-literal conditions hold. -/
theorem satisfiesAll_direct_clauses (w : Nat → Bool) :
    ∀ (ords dirs : List Nat), dirs.length + 1 = ords.length →
      (satisfiesAll w (newInConsistencyClauses ords dirs true) ↔
        List.Chain' (fun a b => w a = true → w b = true) ords ∧
          ∀ p ∈ ords.zip (ords.tail.zip dirs),
            (w p.2.2 = true → w p.1 = false) ∧
              (w p.2.2 = true → w p.2.1 = true) ∧
              (w p.2.2 = false → w p.1 = true ∨ w p.2.1 = false)) := by
  intro ords
  induction ords with
  | nil =>
    intro dirs h
    simp at h
  | cons o1 tail ih =>
    intro dirs h
    cases tail with
    | nil =>
      have hd : dirs = [] := by
        cases dirs with
        | nil => rfl
        | cons a b => simp at h
      subst hd
      simp [newInConsistencyClauses, satisfiesAll]
    | cons o2 rest =>
      obtain ⟨e1, dtail, rfl⟩ : ∃ e1 dtail, dirs = e1 :: dtail := by
        cases dirs with
        | nil => simp at h
        | cons a b => exact ⟨a, b, rfl⟩
      have hlen : dtail.length + 1 = (o2 :: rest).length := by
        simpa using h
      have ih' := ih dtail hlen
      simp only [newInConsistencyClauses, if_true, satisfiesAll_cons,
        clauseSat_imp_pos, clauseSat_imp_neg, clauseSat_ternary, ih',
        List.chain'_cons, List.tail_cons, List.zip_cons_cons,
        List.forall_mem_cons]
      tauto

/-- Claim C7: the clauses that `IntVar::new_in` adds for an eager order
encoding are, semantically, exactly the implications
`L_i → L_{i+1}` for every consecutive pair of order literals, and —
when the direct encoding is eager too — additionally exactly
`E_i → ¬L_i`, `E_i → L_{i+1}` and `¬E_i → L_i ∨ ¬L_{i+1}` for every
interior domain value: a valuation satisfies the emitted clauses if
and only if it satisfies those implications. -/
theorem new_in_clauses_spec (ords dirs : List Nat) (w : Nat → Bool) :
    (satisfiesAll w (newInConsistencyClauses ords dirs false) ↔
      List.Chain' (fun a b => w a = true → w b = true) ords) ∧
    (dirs.length + 1 = ords.length →
      (satisfiesAll w (newInConsistencyClauses ords dirs true) ↔
        List.Chain' (fun a b => w a = true → w b = true) ords ∧
          ∀ p ∈ ords.zip (ords.tail.zip dirs),
            (w p.2.2 = true → w p.1 = false) ∧
              (w p.2.2 = true → w p.2.1 = true) ∧
              (w p.2.2 = false → w p.1 = true ∨ w p.2.1 = false))) :=
  ⟨satisfiesAll_order_clauses w ords dirs,
   fun h => satisfiesAll_direct_clauses w ords dirs h⟩

/-- Witness for `new_in_clauses_spec`: order variables `1, 2, 3` and
direct variables `4, 5` (domain size 4); the valuation corresponding
to the variable taking its second domain value (order literals `2, 3`
and direct literal `4` true) satisfies all emitted clauses, via the
spec side of the equivalence. -/
theorem new_in_clauses_spec_witness :
    satisfiesAll (fun n => decide (2 ≤ n ∧ n ≤ 4)) (newInConsistencyClauses [1, 2, 3] [4, 5] true) :=
  ((new_in_clauses_spec [1, 2, 3] [4, 5] (fun n => decide (2 ≤ n ∧ n ≤ 4))).2
    (by decide)).mpr (by simp [List.chain'_cons])

/-! ## The trail (`solver/engine/trail.rs`)

The Rust trail is a flat `Vec<u32>` of packed events together with a
cursor `pos`; entries before the cursor carry undo information (the
value a trailed integer had before the event) and entries at or after
the cursor have been rewritten by `undo::<true>` to carry redo
information (the value the integer had after the event).  The packed
vector-plus-cursor is modelled as a zipper: `before` holds the events
before the cursor with the most recent first, `after` holds the events
at or after the cursor in forward order.  `pos` is `before.length`,
`trail.len()` is `before.length + after.length`; comparisons between
positions and recorded lengths are invariant under this change of
measurement unit (events instead of packed words). -/

/-- The stored value of a Boolean variable (`BoolStore`): its current
assignment and the value to restore on redo. -/
structure BoolStore where
  value : Option Bool
  restore : Option Bool
deriving DecidableEq

/-- A trailed event (`TrailEvent`): a Boolean assignment or a trailed
integer write together with a stored integer value.  For entries on
the undo side the stored value is the previous value of the cell; for
entries on the redo side it is the value the cell had after the
event. -/
inductive TrailEvent where
  | satAssignment (v : Nat)
  | intAssignment (i : Nat) (v : Int)
deriving DecidableEq

/-- The trail (`Trail`).  `intValue` maps every trailed integer
(`TrailedInt` index) to its current value, and `satStore` maps every
Boolean variable to its store; both are total functions, standing for
the `IndexVec`/`Vec` storage after `track_int`/`grow_to_boolvar`. -/
structure Trail where
  before : List TrailEvent
  after : List TrailEvent
  prevLen : List Nat
  intValue : Nat → Int
  satStore : Nat → BoolStore

/-- The cursor position `pos` of the trail. -/
def Trail.pos (t : Trail) : Nat := t.before.length

/-- The total length `trail.len()` of the trail. -/
def Trail.trailLength (t : Trail) : Nat := t.before.length + t.after.length

/-- `Trail::decision_level`: the current decision level. -/
def Trail.decisionLevel (t : Trail) : Nat := t.prevLen.length

/-- `Trail::undo::<RESTORE>`: undo the event before the cursor, if any.
A Boolean assignment takes the variable's value (recording it in
`restore` when `RESTORE`); an integer event restores the stored
previous value, and when `RESTORE` the entry is rewritten (via
`write_rev_trail`) to hold the current value so that it can be
redone. -/
def Trail.undoStep (restore : Bool) (t : Trail) : Option (TrailEvent × Trail) :=
  match t.before with
  | [] => none
  | e :: rest =>
    match e with
    | .satAssignment r =>
      let store := t.satStore r
      some (e, { t with
        before := rest,
        after := e :: t.after,
        satStore := fun v =>
          if v = r then
            ⟨none, if restore then store.value else store.restore⟩
          else t.satStore v })
    | .intAssignment i v =>
      let cur := t.intValue i
      some (e, { t with
        before := rest,
        after := (if restore then TrailEvent.intAssignment i cur else e) :: t.after,
        intValue := fun j => if j = i then v else t.intValue j })

/-- `Trail::redo`: redo the event at the cursor, if any.  A Boolean
assignment swaps `restore` back into `value`; an integer event
installs the stored (redo) value and rewrites the entry (via
`write_trail`) to hold the overwritten current value, turning it back
into an undo entry. -/
def Trail.redoStep (t : Trail) : Option (TrailEvent × Trail) :=
  match t.after with
  | [] => none
  | e :: rest =>
    match e with
    | .satAssignment r =>
      let store := t.satStore r
      some (e, { t with
        after := rest,
        before := e :: t.before,
        satStore := fun v =>
          if v = r then ⟨store.restore, store.value⟩ else t.satStore v })
    | .intAssignment i v =>
      let cur := t.intValue i
      some (e, { t with
        after := rest,
        before := TrailEvent.intAssignment i cur :: t.before,
        intValue := fun j => if j = i then v else t.intValue j })

/-- `Trail::push_trail`: append an event.  Precondition (Rust
`debug_assert`): the cursor is at the end of the trail
(`after = []`). -/
def Trail.pushTrail (t : Trail) (e : TrailEvent) : Trail :=
  { t with before := e :: t.before }

/-- `Trail::assign_lit`: record the assignment of a literal, returning
the previous value of its variable; an undo record is appended iff the
variable was unassigned and the trail is not at the root level. -/
def Trail.assignLit (t : Trail) (l : RawLit) : Option Bool × Trail :=
  if (t.satStore l.var).value = none ∧ t.prevLen ≠ [] then
    ((t.satStore l.var).value,
      Trail.pushTrail
        { t with satStore := fun v =>
            if v = l.var then ⟨some (!l.neg), (t.satStore l.var).restore⟩ else t.satStore v }
        (.satAssignment l.var))
  else
    ((t.satStore l.var).value,
      { t with satStore := fun v =>
          if v = l.var then ⟨some (!l.neg), (t.satStore l.var).restore⟩ else t.satStore v })

/-- `TrailingActions::set_trailed_int` for `Trail`: write a trailed
integer, returning the previous value; an undo record is appended iff
the value changes and the trail is not at the root level. -/
def Trail.setTrailedInt (t : Trail) (i : Nat) (v : Int) : Int × Trail :=
  if t.intValue i = v then (v, t)
  else if t.prevLen ≠ [] then
    (t.intValue i,
      Trail.pushTrail { t with intValue := fun j => if j = i then v else t.intValue j }
        (.intAssignment i (t.intValue i)))
  else
    (t.intValue i, { t with intValue := fun j => if j = i then v else t.intValue j })

/-- `TrailingActions::get_trailed_int` for `Trail`. -/
def Trail.getTrailedInt (t : Trail) (i : Nat) : Int := t.intValue i

/-- `Trail::notify_new_decision_level`: record the current trail
length. -/
def Trail.notifyNewDecisionLevel (t : Trail) : Trail :=
  { t with prevLen := t.prevLen ++ [t.trailLength] }

/-- The undo loop of `Trail::notify_backtrack`
(`while self.pos > len { undo::<false>() }`): each undo moves the
cursor back by exactly one event, so the loop performs `pos - len`
undo steps. -/
def Trail.undoRun (restore : Bool) : Nat → Trail → Trail
  | 0, t => t
  | n + 1, t =>
    match t.undoStep restore with
    | none => t
    | some (_, t1) => Trail.undoRun restore n t1

/-- The redo loop of `Trail::notify_backtrack`
(`while self.pos < len { redo() }`): `len - pos` redo steps. -/
def Trail.redoRun : Nat → Trail → Trail
  | 0, t => t
  | n + 1, t =>
    match t.redoStep with
    | none => t
    | some (_, t1) => Trail.redoRun n t1

/-- `Trail::notify_backtrack`: restore the state of the trailed values
to the requested decision level.  Levels at or above the current
decision level return immediately (the Cadical chronological
backtracking workaround).  Otherwise the recorded length of the level
is read, the `prev_len` stack is truncated, the cursor is rewound or
fast-forwarded to the recorded length, and the trail is truncated to
it (dropping the redo entries past the cursor). -/
def Trail.backtrackTo (t : Trail) (len : Nat) : Trail :=
  if len ≤ t.pos then Trail.undoRun false (t.pos - len) t
  else Trail.redoRun (len - t.pos) t

/-- The final `self.trail.truncate(len)` of `notify_backtrack`: the
loops have placed the cursor at `len`, so truncation drops exactly the
redo entries past the cursor. -/
def Trail.trailTruncate (t : Trail) (len : Nat) : Trail :=
  { t with after := t.after.take (len - t.before.length) }

def Trail.notifyBacktrack (t : Trail) (level : Nat) : Trail :=
  if t.prevLen.length ≤ level then t
  else
    Trail.trailTruncate
      (Trail.backtrackTo { t with prevLen := t.prevLen.take level } (t.prevLen.getD level 0))
      (t.prevLen.getD level 0)

/-- The redo phase of `Trail::goto_assign_lit` (the literal's variable
is currently unassigned): redo until the assignment of the variable is
found, then undo it once with `RESTORE`; if the trail is exhausted the
literal is unknown and the cursor stays at the end.  The fuel is the
number of redoable events (`after.length` at the call site), which
bounds the loop. -/
def Trail.gotoRedoPhase : Nat → Trail → Nat → Trail
  | 0, t, _ => t
  | fuel + 1, t, var =>
    match t.redoStep with
    | none => t
    | some (e, t1) =>
      if e = .satAssignment var then
        match t1.undoStep true with
        | some (_, t2) => t2
        | none => t1
      else Trail.gotoRedoPhase fuel t1 var

/-- The undo phase of `Trail::goto_assign_lit` (the literal's variable
is currently assigned): undo with `RESTORE` until the assignment of
the variable has been undone; if it is never found the trail returns
to the root.  The fuel is `before.length` at the call site. -/
def Trail.gotoUndoPhase : Nat → Trail → Nat → Trail
  | 0, t, _ => t
  | fuel + 1, t, var =>
    match t.undoStep true with
    | none => t
    | some (e, t1) =>
      if e = .satAssignment var then t1
      else Trail.gotoUndoPhase fuel t1 var

/-- `Trail::goto_assign_lit`: reposition the cursor (without
truncation) to the point at which `lit` was first assigned; used to
serve lazy explanations after the state has moved on. -/
def Trail.gotoAssignLit (t : Trail) (l : RawLit) : Trail :=
  if (t.satStore l.var).value = none then Trail.gotoRedoPhase t.after.length t l.var
  else Trail.gotoUndoPhase t.before.length t l.var

/-- Claim C10: calling `notify_backtrack(level)` with `level` at or
above the current decision level (the number of recorded decision
levels) leaves the entire trail state unchanged: nothing is undone or
redone, the cursor stays, neither the trail nor the decision-level
stack is truncated, and every trailed integer and Boolean value keeps
its value. -/
theorem notify_backtrack_at_or_above_level_noop (t : Trail) (level : Nat)
    (h : t.decisionLevel ≤ level) : t.notifyBacktrack level = t := by
  have h' : t.prevLen.length ≤ level := h
  simp [Trail.notifyBacktrack, h']

/-- Witness for `notify_backtrack_at_or_above_level_noop`: a trail with
one decision level is unchanged by `notify_backtrack 1`. -/
theorem notify_backtrack_noop_witness :
    Trail.notifyBacktrack
        ⟨[TrailEvent.intAssignment 0 1], [], [0], fun _ => 5, fun _ => ⟨none, none⟩⟩ 1 =
      ⟨[TrailEvent.intAssignment 0 1], [], [0], fun _ => 5, fun _ => ⟨none, none⟩⟩ :=
  notify_backtrack_at_or_above_level_noop _ 1 (by decide)

/-! ## Trailed-integer restoration (claim C1)

The value of every trailed integer at any absolute trail position can
be reconstructed from the current values plus the stored entries: undo
entries (in `before`) carry previous values, redo entries (in `after`)
carry subsequent values.  `valAt t n` is the valuation the trail
represents at absolute position `n`. -/

/-- A valuation of the trailed integer cells. -/
abbrev IntValuation := Nat → Int

/-- Apply a stored trail entry to a valuation: an integer entry sets
the cell to the stored value, a Boolean entry changes nothing. -/
def applyEvent (f : IntValuation) : TrailEvent → IntValuation
  | .satAssignment _ => f
  | .intAssignment i v => fun j => if j = i then v else f j

/-- Apply a list of stored entries in order. -/
def applyEvents (es : List TrailEvent) (f : IntValuation) : IntValuation :=
  es.foldl applyEvent f

/-- The valuation of the trailed integers at absolute position `n`:
walking the undo entries back for `n` at or before the cursor, or the
redo entries forward for `n` past the cursor. -/
def Trail.valAt (t : Trail) (n : Nat) : IntValuation :=
  if n ≤ t.pos then applyEvents (t.before.take (t.pos - n)) t.intValue
  else applyEvents (t.after.take (n - t.pos)) t.intValue

theorem applyEvents_cons (e : TrailEvent) (es : List TrailEvent) (f : IntValuation) :
    applyEvents (e :: es) f = applyEvents es (applyEvent f e) := rfl

/-- Re-applying the current value of a cell is the identity. -/
theorem applyEvent_self (f : IntValuation) (i : Nat) :
    applyEvent f (.intAssignment i (f i)) = f := by
  funext j
  by_cases h : j = i <;> simp [applyEvent, h]

/-- Setting a cell and then re-applying its original value cancels. -/
theorem applyEvent_cancel (f : IntValuation) (i : Nat) (v : Int) :
    applyEvent (applyEvent f (.intAssignment i v)) (.intAssignment i (f i)) = f := by
  funext j
  by_cases h : j = i <;> simp [applyEvent, h]

theorem valAt_pos (t : Trail) : t.valAt t.pos = t.intValue := by
  simp [Trail.valAt, applyEvents]

/-- `valAt` does not depend on the decision-level stack. -/
theorem valAt_prevLen_set (t : Trail) (p : List Nat) (n : Nat) :
    Trail.valAt { t with prevLen := p } n = t.valAt n := rfl

/-- Cursor shift to the left (one event moved from `before` to
`after`): if the new current valuation is the old one with the undo
entry applied, and re-applying the pushed redo entry restores the old
valuation, every position keeps its valuation. -/
theorem valAt_shift_left (t t' : Trail) (e0 e1 : TrailEvent)
    (hb : t.before = e0 :: t'.before) (ha : t'.after = e1 :: t.after)
    (hv : t'.intValue = applyEvent t.intValue e0)
    (hc : applyEvent t'.intValue e1 = t.intValue) :
    ∀ n, t'.valAt n = t.valAt n := by
  intro n
  have hpos : t.pos = t'.pos + 1 := by simp [Trail.pos, hb]
  by_cases hn : n ≤ t'.pos
  · have hn' : n ≤ t.pos := by omega
    have harith : t.pos - n = (t'.pos - n) + 1 := by omega
    simp only [Trail.valAt, if_pos hn, if_pos hn', hb, harith, List.take_succ_cons,
      applyEvents_cons, hv]
  · have hn2 : t'.pos < n := Nat.not_le.mp hn
    have harith : n - t'.pos = (n - t.pos) + 1 := by omega
    rw [Trail.valAt, if_neg hn, ha, harith, List.take_succ_cons, applyEvents_cons, hc]
    by_cases hn3 : n ≤ t.pos
    · have : n = t.pos := by omega
      subst this
      simp [Trail.valAt, applyEvents]
    · rw [Trail.valAt, if_neg hn3]

/-- Cursor shift to the left, lower positions only: positions at or
below the new cursor keep their valuation regardless of what was
pushed onto the redo side (used for `undo::<false>`). -/
theorem valAt_shift_left_low (t t' : Trail) (e0 : TrailEvent)
    (hb : t.before = e0 :: t'.before)
    (hv : t'.intValue = applyEvent t.intValue e0) :
    ∀ n, n ≤ t'.pos → t'.valAt n = t.valAt n := by
  intro n hn
  have hpos : t.pos = t'.pos + 1 := by simp [Trail.pos, hb]
  have hn' : n ≤ t.pos := by omega
  have harith : t.pos - n = (t'.pos - n) + 1 := by omega
  simp only [Trail.valAt, if_pos hn, if_pos hn', hb, harith, List.take_succ_cons,
    applyEvents_cons, hv]

/-- Cursor shift to the right (one event moved from `after` to
`before`): symmetric to `valAt_shift_left`. -/
theorem valAt_shift_right (t t' : Trail) (e0 e1 : TrailEvent)
    (ha : t.after = e0 :: t'.after) (hb : t'.before = e1 :: t.before)
    (hv : t'.intValue = applyEvent t.intValue e0)
    (hc : applyEvent t'.intValue e1 = t.intValue) :
    ∀ n, t'.valAt n = t.valAt n :=
  fun n => (valAt_shift_left t' t e1 e0 hb ha hc.symm hv.symm n).symm

/-- `undo` fails exactly on an empty undo side. -/
theorem undoStep_eq_none_iff (restore : Bool) (t : Trail) :
    t.undoStep restore = none ↔ t.before = [] := by
  cases hb : t.before with
  | nil => simp [Trail.undoStep, hb]
  | cons e rest => cases e <;> simp [Trail.undoStep, hb]

/-- `redo` fails exactly on an empty redo side. -/
theorem redoStep_eq_none_iff (t : Trail) :
    t.redoStep = none ↔ t.after = [] := by
  cases ha : t.after with
  | nil => simp [Trail.redoStep, ha]
  | cons e rest => cases e <;> simp [Trail.redoStep, ha]

/-- What a successful undo step does to the decision stack, the event
lists, the current valuation and the valuations of the positions. -/
theorem undoStep_preserves (restore : Bool) (t : Trail) (e : TrailEvent) (t' : Trail)
    (h : t.undoStep restore = some (e, t')) :
    t'.prevLen = t.prevLen ∧
    t'.before = t.before.tail ∧
    t'.after.length = t.after.length + 1 ∧
    t'.intValue = t.valAt (t.pos - 1) ∧
    (∀ n, n ≤ t.pos - 1 → t'.valAt n = t.valAt n) ∧
    (restore = true → ∀ n, t'.valAt n = t.valAt n) := by
  cases hb : t.before with
  | nil => simp [Trail.undoStep, hb] at h
  | cons e0 rest =>
    have hpos : t.pos = rest.length + 1 := by simp [Trail.pos, hb]
    cases e0 with
    | satAssignment r =>
      rw [Trail.undoStep, hb] at h
      simp only [Option.some.injEq, Prod.mk.injEq] at h
      obtain ⟨he, ht⟩ := h
      subst ht
      refine ⟨rfl, by simp [hb], by simp, ?_, ?_, ?_⟩
      · show t.intValue = t.valAt (t.pos - 1)
        rw [Trail.valAt, if_pos (by omega), hb]
        simp [hpos, applyEvents_cons, applyEvent, applyEvents]
      · intro n hn
        refine valAt_shift_left_low t _ (.satAssignment r) ?_ ?_ n ?_
        · exact hb
        · rfl
        · show n ≤ rest.length
          omega
      · intro _
        exact valAt_shift_left t _ (.satAssignment r) (.satAssignment r) hb rfl rfl rfl
    | intAssignment i v =>
      rw [Trail.undoStep, hb] at h
      simp only [Option.some.injEq, Prod.mk.injEq] at h
      obtain ⟨he, ht⟩ := h
      subst ht
      have hval : (fun j => if j = i then v else t.intValue j) =
          applyEvent t.intValue (.intAssignment i v) := rfl
      refine ⟨rfl, by simp [hb], by simp, ?_, ?_, ?_⟩
      · show (fun j => if j = i then v else t.intValue j) = t.valAt (t.pos - 1)
        rw [Trail.valAt, if_pos (by omega), hb]
        simp [hpos, applyEvents_cons, applyEvent, applyEvents]
      · intro n hn
        refine valAt_shift_left_low t _ (.intAssignment i v) ?_ ?_ n ?_
        · exact hb
        · exact hval
        · show n ≤ rest.length
          omega
      · intro hr
        subst hr
        refine valAt_shift_left t _ (.intAssignment i v) (.intAssignment i (t.intValue i))
          ?_ ?_ ?_ ?_
        · exact hb
        · rfl
        · exact hval
        · rw [hval, applyEvent_cancel]

/-- What a successful redo step does to the trail. -/
theorem redoStep_preserves (t : Trail) (e : TrailEvent) (t' : Trail)
    (h : t.redoStep = some (e, t')) :
    t'.prevLen = t.prevLen ∧
    t'.after = t.after.tail ∧
    t'.before.length = t.before.length + 1 ∧
    t'.intValue = t.valAt (t.pos + 1) ∧
    (∀ n, t'.valAt n = t.valAt n) := by
  cases ha : t.after with
  | nil => simp [Trail.redoStep, ha] at h
  | cons e0 rest =>
    cases e0 with
    | satAssignment r =>
      rw [Trail.redoStep, ha] at h
      simp only [Option.some.injEq, Prod.mk.injEq] at h
      obtain ⟨he, ht⟩ := h
      subst ht
      refine ⟨rfl, by simp [ha], by simp, ?_, ?_⟩
      · show t.intValue = t.valAt (t.pos + 1)
        rw [Trail.valAt, if_neg (by omega), ha]
        simp [applyEvents_cons, applyEvent, applyEvents]
      · exact valAt_shift_right t _ (.satAssignment r) (.satAssignment r) ha rfl rfl rfl
    | intAssignment i v =>
      rw [Trail.redoStep, ha] at h
      simp only [Option.some.injEq, Prod.mk.injEq] at h
      obtain ⟨he, ht⟩ := h
      subst ht
      have hval : (fun j => if j = i then v else t.intValue j) =
          applyEvent t.intValue (.intAssignment i v) := rfl
      refine ⟨rfl, by simp [ha], by simp, ?_, ?_⟩
      · show (fun j => if j = i then v else t.intValue j) = t.valAt (t.pos + 1)
        rw [Trail.valAt, if_neg (by omega), ha]
        simp [applyEvents_cons, applyEvent, applyEvents]
      · refine valAt_shift_right t _ (.intAssignment i v) (.intAssignment i (t.intValue i))
          ?_ ?_ ?_ ?_
        · exact ha
        · rfl
        · exact hval
        · rw [hval, applyEvent_cancel]

/-- Running `m ≤ pos` undo steps without `RESTORE` (the rewind loop of
`notify_backtrack`) lands the cursor at `pos - m` and installs exactly
the valuation of that position; the decision stack and the positions
at or below the target keep their valuations. -/
theorem undoRun_spec : ∀ (m : Nat) (t : Trail), m ≤ t.pos →
    (Trail.undoRun false m t).intValue = t.valAt (t.pos - m) ∧
    (Trail.undoRun false m t).before.length = t.pos - m ∧
    (Trail.undoRun false m t).prevLen = t.prevLen := by
  intro m
  induction m with
  | zero =>
    intro t _
    exact ⟨(valAt_pos t).symm, rfl, rfl⟩
  | succ m ih =>
    intro t hm
    cases hu : t.undoStep false with
    | none =>
      exfalso
      have hb := (undoStep_eq_none_iff false t).mp hu
      have : t.pos = 0 := by simp [Trail.pos, hb]
      omega
    | some p =>
      obtain ⟨e, t'⟩ := p
      obtain ⟨hp, hbt, _, hiv, hvals, _⟩ := undoStep_preserves false t e t' hu
      have hpos' : t'.pos = t.pos - 1 := by
        simp [Trail.pos, hbt]
      have hm' : m ≤ t'.pos := by omega
      have hrun : Trail.undoRun false (m + 1) t = Trail.undoRun false m t' := by
        simp [Trail.undoRun, hu]
      obtain ⟨ih1, ih2, ih3⟩ := ih t' hm'
      refine ⟨?_, ?_, ?_⟩
      · have hside : t'.pos - m ≤ t.pos - 1 := by omega
        have harith : t'.pos - m = t.pos - (m + 1) := by omega
        rw [hrun, ih1, hvals (t'.pos - m) hside, harith]
      · rw [hrun, ih2]
        omega
      · rw [hrun, ih3, hp]

/-- Running `m` redo steps (the fast-forward loop of
`notify_backtrack`), with `pos + m` within the trail, lands the cursor
at `pos + m` and installs exactly the valuation of that position. -/
theorem redoRun_spec : ∀ (m : Nat) (t : Trail), t.pos + m ≤ t.trailLength →
    (Trail.redoRun m t).intValue = t.valAt (t.pos + m) ∧
    (Trail.redoRun m t).before.length = t.pos + m ∧
    (Trail.redoRun m t).prevLen = t.prevLen := by
  intro m
  induction m with
  | zero =>
    intro t _
    exact ⟨(valAt_pos t).symm, rfl, rfl⟩
  | succ m ih =>
    intro t hm
    cases hr : t.redoStep with
    | none =>
      exfalso
      have ha := redoStep_eq_none_iff t |>.mp hr
      have : t.trailLength = t.pos := by
        simp [Trail.trailLength, Trail.pos, ha]
      omega
    | some p =>
      obtain ⟨e, t'⟩ := p
      obtain ⟨hp, hat, hbt, hiv, hvals⟩ := redoStep_preserves t e t' hr
      have hpos' : t'.pos = t.pos + 1 := hbt
      have hta : t.after ≠ [] := by
        intro hemp
        exact (by simp [redoStep_eq_none_iff t |>.mpr hemp] at hr)
      have h2 : t'.after.length + 1 = t.after.length := by
        rw [hat]
        cases hta2 : t.after with
        | nil => exact absurd hta2 hta
        | cons a rest => simp
      have hlen' : t'.trailLength = t.trailLength := by
        show t'.before.length + t'.after.length = t.before.length + t.after.length
        have h3 : t'.before.length = t.before.length + 1 := hbt
        omega
      have hm' : t'.pos + m ≤ t'.trailLength := by omega
      have hrun : Trail.redoRun (m + 1) t = Trail.redoRun m t' := by
        simp [Trail.redoRun, hr]
      obtain ⟨ih1, ih2, ih3⟩ := ih t' hm'
      refine ⟨?_, ?_, ?_⟩
      · have harith : t'.pos + m = t.pos + (m + 1) := by omega
        rw [hrun, ih1, hvals (t'.pos + m), harith]
      · rw [hrun, ih2]
        omega
      · rw [hrun, ih3, hp]

/-- `notify_backtrack` to a level strictly below the current decision
level installs exactly the valuation at the recorded trail length of
that level. -/
theorem backtrackTo_spec (t : Trail) (len : Nat) (h : len ≤ t.trailLength) :
    (t.backtrackTo len).intValue = t.valAt len ∧
      (t.backtrackTo len).prevLen = t.prevLen ∧
      (t.backtrackTo len).before.length = len := by
  rw [Trail.backtrackTo]
  by_cases hdir : len ≤ t.pos
  · rw [if_pos hdir]
    obtain ⟨h1, h2, h3⟩ := undoRun_spec (t.pos - len) t (by omega)
    rw [h1, h2, h3]
    have harith : t.pos - (t.pos - len) = len := by omega
    rw [harith]
    exact ⟨rfl, rfl, rfl⟩
  · rw [if_neg hdir]
    have hle : t.pos ≤ len := by omega
    obtain ⟨h1, h2, h3⟩ := redoRun_spec (len - t.pos) t (by omega)
    rw [h1, h2, h3]
    have harith : t.pos + (len - t.pos) = len := by omega
    rw [harith]
    exact ⟨rfl, rfl, rfl⟩

/-- `notify_backtrack` to a level strictly below the current decision
level installs exactly the valuation at the recorded trail length of
that level, and truncates the decision stack to that level. -/
theorem notifyBacktrack_intValue (t : Trail) (k : Nat) (hk : k < t.prevLen.length)
    (hlen : t.prevLen.getD k 0 ≤ t.trailLength) :
    (t.notifyBacktrack k).intValue = t.valAt (t.prevLen.getD k 0) ∧
      (t.notifyBacktrack k).prevLen = t.prevLen.take k := by
  have hcond : ¬ t.prevLen.length ≤ k := by omega
  rw [Trail.notifyBacktrack, if_neg hcond]
  have hlen1 : t.prevLen.getD k 0 ≤
      Trail.trailLength { t with prevLen := t.prevLen.take k } := hlen
  obtain ⟨h1, h2, h3⟩ :=
    backtrackTo_spec { t with prevLen := t.prevLen.take k } (t.prevLen.getD k 0) hlen1
  exact ⟨h1, h2⟩

/-- The operations of the engine phase covered by the restoration
property: literal assignments, trailed-integer writes and new decision
levels. -/
inductive TrailOp where
  | assign (l : RawLit)
  | write (i : Nat) (v : Int)
  | newLevel

/-- Execute one operation on the trail. -/
def Trail.applyOp (t : Trail) : TrailOp → Trail
  | .assign l => (t.assignLit l).2
  | .write i v => (t.setTrailedInt i v).2
  | .newLevel => t.notifyNewDecisionLevel

/-- Execute a sequence of operations. -/
def Trail.execOps (t : Trail) (ops : List TrailOp) : Trail :=
  ops.foldl Trail.applyOp t

/-- Specification side: the valuation of the trailed integers
immediately before each `notify_new_decision_level` call, computed by
pure interpretation of the operation sequence (ignoring the trail
mechanics entirely).  The `k`-th entry is the valuation immediately
before decision level `k` began. -/
def levelSnapshots : List TrailOp → IntValuation → List IntValuation
  | [], _ => []
  | .newLevel :: rest, f => f :: levelSnapshots rest f
  | .write i v :: rest, f => levelSnapshots rest (fun j => if j = i then v else f j)
  | .assign _ :: rest, f => levelSnapshots rest f

/-- The snapshot contributed by a single operation. -/
def opSnap (op : TrailOp) (f : IntValuation) : List IntValuation :=
  match op with
  | .newLevel => [f]
  | _ => []

/-- The pure effect of a single operation on the valuation. -/
def opVal (op : TrailOp) (f : IntValuation) : IntValuation :=
  match op with
  | .write i v => fun j => if j = i then v else f j
  | _ => f

theorem levelSnapshots_cons (op : TrailOp) (rest : List TrailOp) (f : IntValuation) :
    levelSnapshots (op :: rest) f = opSnap op f ++ levelSnapshots rest (opVal op f) := by
  cases op <;> rfl

/-- The all-zero valuation, used as the `getD` default. -/
def zeroVal : IntValuation := fun _ => 0

/-- The invariant tying the trail to the specification snapshots: the
decision stack has one recorded length per snapshot, every recorded
length is within the trail, and the valuation at each recorded length
is the corresponding snapshot. -/
def Trail.SnapInv (t : Trail) (snaps : List IntValuation) : Prop :=
  t.prevLen.length = snaps.length ∧
  ∀ k, k < snaps.length →
    t.prevLen.getD k 0 ≤ t.trailLength ∧
    t.valAt (t.prevLen.getD k 0) = snaps.getD k zeroVal

/-- Pushing an undo entry whose application restores the previous
valuation keeps the valuation of every position at or below the old
cursor. -/
theorem valAt_push (t t' : Trail) (e : TrailEvent)
    (hb : t'.before = e :: t.before) (_ha : t'.after = t.after)
    (hv : applyEvent t'.intValue e = t.intValue) :
    ∀ n, n ≤ t.pos → t'.valAt n = t.valAt n := by
  intro n hn
  have hpos : t'.pos = t.pos + 1 := by simp [Trail.pos, hb]
  have hn' : n ≤ t'.pos := by omega
  have harith : t'.pos - n = (t.pos - n) + 1 := by omega
  rw [Trail.valAt, if_pos hn', hb, harith, List.take_succ_cons, applyEvents_cons, hv,
    Trail.valAt, if_pos hn]

/-- The branch equations of `assign_lit` and `set_trailed_int`. -/
theorem assignLit_snd_push (t : Trail) (l : RawLit)
    (hc : (t.satStore l.var).value = none ∧ t.prevLen ≠ []) :
    (t.assignLit l).2 =
      Trail.pushTrail
        { t with satStore := fun v =>
            if v = l.var then ⟨some (!l.neg), (t.satStore l.var).restore⟩ else t.satStore v }
        (.satAssignment l.var) := by
  rw [Trail.assignLit, if_pos hc]

theorem assignLit_snd_nopush (t : Trail) (l : RawLit)
    (hc : ¬ ((t.satStore l.var).value = none ∧ t.prevLen ≠ [])) :
    (t.assignLit l).2 =
      { t with satStore := fun v =>
          if v = l.var then ⟨some (!l.neg), (t.satStore l.var).restore⟩ else t.satStore v } := by
  rw [Trail.assignLit, if_neg hc]

theorem setTrailedInt_snd_same (t : Trail) (i : Nat) (v : Int) (h : t.intValue i = v) :
    (t.setTrailedInt i v).2 = t := by
  rw [Trail.setTrailedInt, if_pos h]

theorem setTrailedInt_snd_push (t : Trail) (i : Nat) (v : Int)
    (h : ¬ t.intValue i = v) (hr : t.prevLen ≠ []) :
    (t.setTrailedInt i v).2 =
      Trail.pushTrail { t with intValue := fun j => if j = i then v else t.intValue j }
        (.intAssignment i (t.intValue i)) := by
  rw [Trail.setTrailedInt, if_neg h, if_pos hr]

theorem setTrailedInt_snd_root (t : Trail) (i : Nat) (v : Int)
    (h : ¬ t.intValue i = v) (hr : ¬ t.prevLen ≠ []) :
    (t.setTrailedInt i v).2 =
      { t with intValue := fun j => if j = i then v else t.intValue j } := by
  rw [Trail.setTrailedInt, if_neg h, if_neg hr]

/-- Appending an undo entry on top of a modification whose undo
restores the previous valuation preserves the snapshot invariant. -/
theorem pushTrail_snapinv (t u : Trail) (e : TrailEvent) (snaps : List IntValuation)
    (hb : u.before = t.before) (ha : u.after = t.after) (hp : u.prevLen = t.prevLen)
    (hv : applyEvent u.intValue e = t.intValue)
    (hafter : t.after = []) (hinv : t.SnapInv snaps) :
    (u.pushTrail e).SnapInv snaps := by
  obtain ⟨hlen, hks⟩ := hinv
  have hpt : t.trailLength = t.pos := by
    simp [Trail.trailLength, Trail.pos, hafter]
  have hb' : (u.pushTrail e).before = e :: t.before := by
    simp [Trail.pushTrail, hb]
  have ha' : (u.pushTrail e).after = t.after := ha
  have hlen' : (u.pushTrail e).trailLength = t.trailLength + 1 := by
    simp [Trail.pushTrail, Trail.trailLength, hb, ha]
    omega
  refine ⟨?_, ?_⟩
  · show (u.pushTrail e).prevLen.length = snaps.length
    simpa [Trail.pushTrail, hp] using hlen
  · intro k hk
    have hpl : (u.pushTrail e).prevLen = t.prevLen := hp
    obtain ⟨hbd, hvk⟩ := hks k hk
    rw [hpl, hlen']
    refine ⟨by omega, ?_⟩
    rw [valAt_push t (u.pushTrail e) e hb' ha' hv (t.prevLen.getD k 0) (by omega)]
    exact hvk

/-- One engine operation, applied while the cursor is at the end of
the trail, keeps the cursor at the end, has the pure effect `opVal` on
the trailed integers, and preserves the snapshot invariant extended by
`opSnap`. -/
theorem applyOp_preserves (t : Trail) (snaps : List IntValuation) (op : TrailOp)
    (hafter : t.after = []) (hinv : t.SnapInv snaps) :
    (t.applyOp op).after = [] ∧
    (t.applyOp op).intValue = opVal op t.intValue ∧
    (t.applyOp op).SnapInv (snaps ++ opSnap op t.intValue) := by
  obtain ⟨hlen, hks⟩ := hinv
  have hpt : t.trailLength = t.pos := by
    simp [Trail.trailLength, Trail.pos, hafter]
  cases op with
  | newLevel =>
    refine ⟨hafter, rfl, ?_, ?_⟩
    · show (t.prevLen ++ [t.trailLength]).length = (snaps ++ [t.intValue]).length
      simp [hlen]
    · intro k hk
      show (t.prevLen ++ [t.trailLength]).getD k 0 ≤ t.trailLength ∧
        t.valAt ((t.prevLen ++ [t.trailLength]).getD k 0) =
          (snaps ++ [t.intValue]).getD k zeroVal
      have hk' : k < snaps.length + 1 := by simpa [opSnap] using hk
      by_cases hkl : k < snaps.length
      · rw [List.getD_append _ _ _ _ (by omega), List.getD_append _ _ _ _ (by omega)]
        exact hks k hkl
      · have hke : k = snaps.length := by omega
        subst hke
        rw [List.getD_append_right _ _ _ _ (by omega),
          List.getD_append_right _ _ _ _ (by omega), hlen]
        simp only [Nat.sub_self, List.getD_cons_zero]
        refine ⟨le_refl _, ?_⟩
        rw [hpt, valAt_pos]
  | assign l =>
    show ((t.assignLit l).2).after = [] ∧
      ((t.assignLit l).2).intValue = t.intValue ∧
      ((t.assignLit l).2).SnapInv (snaps ++ [])
    rw [List.append_nil]
    by_cases hcond : (t.satStore l.var).value = none ∧ t.prevLen ≠ []
    · rw [assignLit_snd_push t l hcond]
      exact ⟨hafter, rfl,
        pushTrail_snapinv t _ (.satAssignment l.var) snaps rfl rfl rfl rfl hafter
          ⟨hlen, hks⟩⟩
    · rw [assignLit_snd_nopush t l hcond]
      exact ⟨hafter, rfl, ⟨hlen, hks⟩⟩
  | write i v =>
    show ((t.setTrailedInt i v).2).after = [] ∧
      ((t.setTrailedInt i v).2).intValue = (fun j => if j = i then v else t.intValue j) ∧
      ((t.setTrailedInt i v).2).SnapInv (snaps ++ [])
    rw [List.append_nil]
    by_cases heq : t.intValue i = v
    · rw [setTrailedInt_snd_same t i v heq]
      have hfun : (fun j => if j = i then v else t.intValue j) = t.intValue := by
        funext j
        by_cases hj : j = i <;> simp [hj, heq]
      exact ⟨hafter, hfun.symm, ⟨hlen, hks⟩⟩
    · by_cases hroot : t.prevLen ≠ []
      · rw [setTrailedInt_snd_push t i v heq hroot]
        exact ⟨hafter, rfl,
          pushTrail_snapinv t _ (.intAssignment i (t.intValue i)) snaps rfl rfl rfl
            (applyEvent_cancel t.intValue i v) hafter ⟨hlen, hks⟩⟩
      · rw [setTrailedInt_snd_root t i v heq hroot]
        have hsnil : snaps = [] := by
          rw [Decidable.not_not] at hroot
          rw [hroot] at hlen
          exact (List.length_eq_zero.mp hlen.symm)
        subst hsnil
        refine ⟨hafter, rfl, by simpa using hlen, ?_⟩
        intro k hk
        simp at hk

/-- Executing a sequence of operations from a cursor-at-end state
keeps the cursor at the end and establishes the snapshot invariant
for the snapshots taken at each `notify_new_decision_level`. -/
theorem execOps_spec : ∀ (ops : List TrailOp) (t : Trail) (snaps : List IntValuation),
    t.after = [] → t.SnapInv snaps →
    (t.execOps ops).after = [] ∧
    (t.execOps ops).SnapInv (snaps ++ levelSnapshots ops t.intValue) := by
  intro ops
  induction ops with
  | nil =>
    intro t snaps hafter hinv
    simpa [Trail.execOps, levelSnapshots] using ⟨hafter, hinv⟩
  | cons op rest ih =>
    intro t snaps hafter hinv
    obtain ⟨h1, h2, h3⟩ := applyOp_preserves t snaps op hafter hinv
    have hexec : t.execOps (op :: rest) = (t.applyOp op).execOps rest := rfl
    obtain ⟨ih1, ih2⟩ := ih (t.applyOp op) (snaps ++ opSnap op t.intValue) h1 h3
    rw [hexec]
    refine ⟨ih1, ?_⟩
    rw [levelSnapshots_cons, ← List.append_assoc, ← h2]
    exact ih2

/-- The initial trail: empty event log, no decision level, arbitrary
initial trailed-integer values and Boolean stores (modelling the state
after `track_int`/`grow_to_boolvar` initialization). -/
def Trail.init (f : IntValuation) (s : Nat → BoolStore) : Trail :=
  ⟨[], [], [], f, s⟩

/-- A sequence of `goto_assign_lit` cursor repositionings. -/
def applyGotos (gotos : List RawLit) (t : Trail) : Trail :=
  gotos.foldl Trail.gotoAssignLit t

/-- The state relation preserved by cursor repositioning: same decision
stack, same trail length, same valuation at every position. -/
def TrailPreserved (t t' : Trail) : Prop :=
  t'.prevLen = t.prevLen ∧ t'.trailLength = t.trailLength ∧ ∀ n, t'.valAt n = t.valAt n

theorem trailPreserved_refl (t : Trail) : TrailPreserved t t :=
  ⟨rfl, rfl, fun _ => rfl⟩

theorem trailPreserved_trans {t1 t2 t3 : Trail}
    (h12 : TrailPreserved t1 t2) (h23 : TrailPreserved t2 t3) : TrailPreserved t1 t3 :=
  ⟨h23.1.trans h12.1, h23.2.1.trans h12.2.1, fun n => (h23.2.2 n).trans (h12.2.2 n)⟩

theorem undoStep_true_trailPreserved {t : Trail} {e : TrailEvent} {t' : Trail}
    (h : t.undoStep true = some (e, t')) : TrailPreserved t t' := by
  obtain ⟨hp, hbt, hal, _, _, hall⟩ := undoStep_preserves true t e t' h
  have hbne : t.before ≠ [] := by
    intro hemp
    simp [(undoStep_eq_none_iff true t).mpr hemp] at h
  refine ⟨hp, ?_, hall rfl⟩
  show t'.before.length + t'.after.length = t.before.length + t.after.length
  rw [hbt, hal]
  cases hb2 : t.before with
  | nil => exact absurd hb2 hbne
  | cons a r => simp; omega

theorem redoStep_trailPreserved {t : Trail} {e : TrailEvent} {t' : Trail}
    (h : t.redoStep = some (e, t')) : TrailPreserved t t' := by
  obtain ⟨hp, hat, hbl, _, hall⟩ := redoStep_preserves t e t' h
  have hane : t.after ≠ [] := by
    intro hemp
    simp [(redoStep_eq_none_iff t).mpr hemp] at h
  refine ⟨hp, ?_, hall⟩
  show t'.before.length + t'.after.length = t.before.length + t.after.length
  rw [hbl, hat]
  cases ha2 : t.after with
  | nil => exact absurd ha2 hane
  | cons a r => simp; omega

theorem gotoRedoPhase_trailPreserved : ∀ (fuel : Nat) (t : Trail) (var : Nat),
    TrailPreserved t (Trail.gotoRedoPhase fuel t var) := by
  intro fuel
  induction fuel with
  | zero => intro t var; exact trailPreserved_refl t
  | succ fuel ih =>
    intro t var
    cases hr : t.redoStep with
    | none =>
      simp only [Trail.gotoRedoPhase, hr]
      exact trailPreserved_refl t
    | some p =>
      obtain ⟨e, t1⟩ := p
      have h1 := redoStep_trailPreserved hr
      simp only [Trail.gotoRedoPhase, hr]
      by_cases he : e = .satAssignment var
      · rw [if_pos he]
        cases hu : t1.undoStep true with
        | none =>
          simp only [hu]
          exact h1
        | some q =>
          obtain ⟨e2, t2⟩ := q
          simp only [hu]
          exact trailPreserved_trans h1 (undoStep_true_trailPreserved hu)
      · rw [if_neg he]
        exact trailPreserved_trans h1 (ih t1 var)

theorem gotoUndoPhase_trailPreserved : ∀ (fuel : Nat) (t : Trail) (var : Nat),
    TrailPreserved t (Trail.gotoUndoPhase fuel t var) := by
  intro fuel
  induction fuel with
  | zero => intro t var; exact trailPreserved_refl t
  | succ fuel ih =>
    intro t var
    cases hu : t.undoStep true with
    | none =>
      simp only [Trail.gotoUndoPhase, hu]
      exact trailPreserved_refl t
    | some p =>
      obtain ⟨e, t1⟩ := p
      have h1 := undoStep_true_trailPreserved hu
      simp only [Trail.gotoUndoPhase, hu]
      by_cases he : e = .satAssignment var
      · rw [if_pos he]
        exact h1
      · rw [if_neg he]
        exact trailPreserved_trans h1 (ih t1 var)

theorem gotoAssignLit_trailPreserved (t : Trail) (l : RawLit) :
    TrailPreserved t (t.gotoAssignLit l) := by
  rw [Trail.gotoAssignLit]
  by_cases hc : (t.satStore l.var).value = none
  · rw [if_pos hc]
    exact gotoRedoPhase_trailPreserved t.after.length t l.var
  · rw [if_neg hc]
    exact gotoUndoPhase_trailPreserved t.before.length t l.var

theorem applyGotos_trailPreserved : ∀ (gotos : List RawLit) (t : Trail),
    TrailPreserved t (applyGotos gotos t) := by
  intro gotos
  induction gotos with
  | nil => intro t; exact trailPreserved_refl t
  | cons l rest ih =>
    intro t
    exact trailPreserved_trans (gotoAssignLit_trailPreserved t l) (ih (t.gotoAssignLit l))

/-- The snapshot invariant is carried across cursor repositioning. -/
theorem snapInv_of_trailPreserved {t t' : Trail} {snaps : List IntValuation}
    (hp : TrailPreserved t t') (hinv : t.SnapInv snaps) : t'.SnapInv snaps := by
  obtain ⟨hpl, hlen, hvals⟩ := hp
  obtain ⟨h1, h2⟩ := hinv
  refine ⟨by rw [hpl, h1], ?_⟩
  intro k hk
  obtain ⟨hb, hv⟩ := h2 k hk
  rw [hpl, hlen, hvals]
  exact ⟨hb, hv⟩

/-- Claim C1: for every sequence of literal assignments
(`assign_lit`) and trailed-integer writes (`set_trailed_int`)
interleaved with `notify_new_decision_level` calls, and after any
sequence of `goto_assign_lit` cursor repositionings (undone and
redone events), a successful `notify_backtrack(k)` with `k` strictly
below the current decision level restores every trailed integer cell
to the exact value it held immediately before decision level `k`
began (the valuation recorded by the pure interpretation
`levelSnapshots` at the `k`-th `notify_new_decision_level`). -/
theorem trail_backtrack_restores_trailed_ints
    (ops : List TrailOp) (gotos : List RawLit) (f : IntValuation) (s : Nat → BoolStore)
    (k : Nat)
    (hk : k < (applyGotos gotos ((Trail.init f s).execOps ops)).decisionLevel) :
    ∀ i, ((applyGotos gotos ((Trail.init f s).execOps ops)).notifyBacktrack k).intValue i =
      (levelSnapshots ops f).getD k zeroVal i := by
  have hinit : (Trail.init f s).SnapInv [] := by
    refine ⟨rfl, ?_⟩
    intro k0 hk0
    simp at hk0
  obtain ⟨hafter, hinv⟩ := execOps_spec ops (Trail.init f s) [] rfl hinit
  have hinv1 : ((Trail.init f s).execOps ops).SnapInv (levelSnapshots ops f) := by
    simpa using hinv
  have hpres := applyGotos_trailPreserved gotos ((Trail.init f s).execOps ops)
  have hinv2 : (applyGotos gotos ((Trail.init f s).execOps ops)).SnapInv
      (levelSnapshots ops f) := snapInv_of_trailPreserved hpres hinv1
  obtain ⟨hlen2, hks2⟩ := hinv2
  have hk2 : k < (levelSnapshots ops f).length := by
    rw [← hlen2]
    exact hk
  obtain ⟨hbd, hval⟩ := hks2 k hk2
  obtain ⟨hiv, _⟩ :=
    notifyBacktrack_intValue (applyGotos gotos ((Trail.init f s).execOps ops)) k
      (by rw [hlen2]; exact hk2) hbd
  intro i
  rw [hiv, hval]

/-- Witness for `trail_backtrack_restores_trailed_ints`: cell `0` is
written to `5`, a decision level starts, literal `7` is assigned and
the cell is written to `6`, a second level starts and the cell is
written to `9`; after repositioning the cursor to the assignment of
literal `7` (`goto_assign_lit`), backtracking to level `1` restores
the cell to `6`, its value immediately before level `1` began. -/
theorem trail_backtrack_restores_trailed_ints_witness :
    ((applyGotos [⟨7, false⟩]
        ((Trail.init zeroVal (fun _ => ⟨none, none⟩)).execOps
          [.write 0 5, .newLevel, .assign ⟨7, false⟩, .write 0 6, .newLevel,
            .write 0 9])).notifyBacktrack 1).intValue 0 = 6 := by
  have h := trail_backtrack_restores_trailed_ints
    [.write 0 5, .newLevel, .assign ⟨7, false⟩, .write 0 6, .newLevel, .write 0 9]
    [⟨7, false⟩] zeroVal (fun _ => ⟨none, none⟩) 1 (by decide)
  exact (h 0).trans (by decide)

/-! ## Integer variables (`solver/engine/int_var.rs`)

The initial domain of an integer variable (`RangeList<IntVal>`) is
modelled as the ascending list of its disjoint inclusive ranges. -/

/-- The lower bound of a domain (`RangeList::lower_bound`). -/
def domLowerBound (d : List (Int × Int)) : Option Int :=
  d.head?.map (fun r => r.1)

/-- The upper bound of a domain (`RangeList::upper_bound`). -/
def domUpperBound (d : List (Int × Int)) : Option Int :=
  d.getLast?.map (fun r => r.2)

/-- Domain membership (`RangeList::contains`). -/
def domContains (d : List (Int × Int)) (i : Int) : Bool :=
  d.any (fun r => r.1 ≤ i && i ≤ r.2)

/-- A contiguous range of oracle variables (`pindakaas::VarRange`),
identified by its first variable and its length. -/
structure VarRange where
  start : Nat
  len : Nat
deriving DecidableEq

/-- `VarRange::index`. -/
def VarRange.index (r : VarRange) (i : Nat) : Nat := r.start + i

/-- A node of the lazy order storage (`OrderNode`): the variable
representing `x < val` and the links of the sorted doubly linked
list. -/
structure OrderNode where
  val : Int
  var : Nat
  hasPrev : Bool
  prev : Nat
  hasNext : Bool
  next : Nat
deriving DecidableEq

instance : Inhabited OrderNode := ⟨⟨0, 0, false, 0, false, 0⟩⟩

/-- The lazy order storage (`LazyOrderStorage`): the node pool together
with the indices of the minimum and maximum nodes.  `lbIndex` and
`ubIndex` are the `TrailedInt` handles of the bound cursors; they are
carried but not consulted by literal lookup or creation. -/
structure LazyOrderStorage where
  minIndex : Nat
  maxIndex : Nat
  lbIndex : Nat
  ubIndex : Nat
  storage : List OrderNode
deriving DecidableEq

/-- Node access (`Index<u32> for LazyOrderStorage`); out-of-bounds
access panics in Rust and yields the default node here. -/
def LazyOrderStorage.get (s : LazyOrderStorage) (i : Nat) : OrderNode :=
  s.storage.getD i default

/-- `LazyOrderStorage::is_empty`. -/
def LazyOrderStorage.isEmpty (s : LazyOrderStorage) : Bool :=
  s.storage.isEmpty

/-- `LazyOrderStorage::find_index` in the `Increasing` direction: walk
the `next` links while the next node's value is at most `val`.  The
walk of the Rust `while` loop is bounded by the node count, which is
passed as fuel. -/
def LazyOrderStorage.findIndexInc (s : LazyOrderStorage) : Nat → Nat → Int → Nat
  | 0, i, _ => i
  | fuel + 1, i, val =>
    if (s.get i).hasNext && (s.get (s.get i).next).val ≤ val then
      LazyOrderStorage.findIndexInc s fuel (s.get i).next val
    else i

/-- The storage of the order encoding (`OrderStorage`): an eager
contiguous variable range (with the `TrailedInt` handle of the lower
bound), or a lazy linked-node storage. -/
inductive OrderStorage where
  | eager (lowerBound : Nat) (storage : VarRange)
  | lazy (s : LazyOrderStorage)
deriving DecidableEq

/-- `OrderStorage::resolve_val`: the lowest value `j` with `< j`
equivalent to `< val` on the domain, the offset of `< j` in an eager
variable range, and the remaining range iterator (the suffix of the
domain from the range containing `j`).  The accumulating offset starts
at `-1` to account for the unencoded lower bound.  An empty suffix
means the Rust iterator would have panicked (`val` above the upper
bound), which callers exclude. -/
def resolveValAux (offset : Int) : List (Int × Int) → Int → Int × Int × List (Int × Int)
  | [], val => (val, offset, [])
  | r :: rest, val =>
    if val < r.1 then (r.1, offset, r :: rest)
    else if val ≤ r.2 then (val, offset + (val - r.1), r :: rest)
    else resolveValAux (offset + (r.2 - r.1 + 1)) rest val

/-- See `resolveValAux`; the returned offset is cast to `usize`. -/
def resolveVal (domain : List (Int × Int)) (val : Int) : Int × Nat × List (Int × Int) :=
  match resolveValAux (-1) domain val with
  | (rv, off, it) => (rv, off.toNat, it)

/-- An entry of the order storage (`OrderEntry`): an eager offset, an
existing lazy node, or the insertion point for a new node (the index
of the preceding node or `-1`, the remaining range iterator and the
resolved value). -/
inductive OrderEntry where
  | eager (storage : VarRange) (offset : Nat)
  | occupied (index : Nat) (ranges : List (Int × Int))
  | vacant (prevIndex : Int) (ranges : List (Int × Int)) (val : Int)
deriving DecidableEq

/-- `OrderStorage::entry`: locate the position for the condition
`< val`. -/
def OrderStorage.entry (os : OrderStorage) (domain : List (Int × Int)) (val : Int) :
    OrderEntry :=
  match resolveVal domain val with
  | (val, offset, ranges) =>
    match os with
    | .eager _ storage => .eager storage offset
    | .lazy s =>
      if s.isEmpty || (s.get s.minIndex).val > val then
        .vacant (-1) ranges val
      else if (s.get s.maxIndex).val < val then
        .vacant (Int.ofNat s.maxIndex) ranges val
      else
        if (s.get (s.findIndexInc s.storage.length s.minIndex val)).val = val then
          .occupied (s.findIndexInc s.storage.length s.minIndex val) ranges
        else
          .vacant (Int.ofNat (s.findIndexInc s.storage.length s.minIndex val)) ranges val

/-- `OrderStorage::find`: the variable representing `< val`, when it
already exists. -/
def OrderStorage.find (os : OrderStorage) (domain : List (Int × Int)) (val : Int) :
    Option Nat :=
  match resolveVal domain val with
  | (val, offset, _) =>
    match os with
    | .eager _ storage => some (storage.index offset)
    | .lazy s =>
      if s.isEmpty || (s.get s.minIndex).val > val || (s.get s.maxIndex).val < val then
        none
      else
        if (s.get (s.findIndexInc s.storage.length s.minIndex val)).val = val then
          some (s.get (s.findIndexInc s.storage.length s.minIndex val)).var
        else none

/-- Update the `next` link of a node. -/
def setNodeNext (nodes : List OrderNode) (p idx : Nat) : List OrderNode :=
  nodes.set p { nodes.getD p default with hasNext := true, next := idx }

/-- Update the `prev` link of a node. -/
def setNodePrev (nodes : List OrderNode) (p idx : Nat) : List OrderNode :=
  nodes.set p { nodes.getD p default with hasPrev := true, prev := idx }

/-- `OrderEntry::or_insert_with` together with the splicing of a fresh
node into the lazy storage.  The `new_var` callback is modelled by the
fresh-variable counter: the new oracle variable is the current counter
value.  Returns the (now occupied) entry, the variable, and the
updated storage and counter. -/
def OrderEntry.orInsertWith (e : OrderEntry) (os : OrderStorage) (fresh : Nat) :
    OrderEntry × Nat × OrderStorage × Nat :=
  match e, os with
  | .eager storage offset, _ => (.eager storage offset, storage.index offset, os, fresh)
  | .occupied i ranges, .lazy s => (.occupied i ranges, (s.get i).var, .lazy s, fresh)
  | .vacant prevIndex ranges val, .lazy s =>
    let pn : Option Nat × Option Nat :=
      if 0 ≤ prevIndex then
        (some prevIndex.toNat,
          if (s.get prevIndex.toNat).hasNext then some (s.get prevIndex.toNat).next else none)
      else if !s.isEmpty then (none, some s.minIndex)
      else (none, none)
    let var := fresh
    let nodes := s.storage ++
      [⟨val, var, pn.1.isSome, pn.1.getD 0, pn.2.isSome, pn.2.getD 0⟩]
    let index := nodes.length - 1
    let nodes := match pn.1 with
      | some p => setNodeNext nodes p index
      | none => nodes
    let nodes := match pn.2 with
      | some nx => setNodePrev nodes nx index
      | none => nodes
    let s2 : LazyOrderStorage :=
      { minIndex := match pn.1 with | some _ => s.minIndex | none => index
        maxIndex := match pn.2 with | some _ => s.maxIndex | none => index
        lbIndex := s.lbIndex
        ubIndex := s.ubIndex
        storage := nodes }
    (.occupied index ranges, var, .lazy s2, fresh + 1)
  | e, os => (e, 0, os, fresh)

/-- The next domain value after the value of an entry, advancing the
range iterator (`range_iter.peek` / `next`); exhaustion panics in Rust
and returns `v + 1` here. -/
def nextInRanges (ranges : List (Int × Int)) (v : Int) : Int × List (Int × Int) :=
  match ranges with
  | r :: rest =>
    if r.1 ≤ v + 1 && v + 1 ≤ r.2 then (v + 1, r :: rest)
    else
      match rest with
      | r2 :: rest2 => (r2.1, r2 :: rest2)
      | [] => (v + 1, [])
  | [] => (v + 1, [])

/-- `OrderEntry::next_value`: forward the entry to the next value of
the domain. -/
def OrderEntry.nextValue (e : OrderEntry) (os : OrderStorage) : OrderEntry :=
  match e, os with
  | .eager storage offset, _ => .eager storage (offset + 1)
  | .occupied i ranges, .lazy s =>
    match nextInRanges ranges (s.get i).val with
    | (next, ranges) =>
      if (s.get i).hasNext && (s.get (s.get i).next).val = next then
        .occupied (s.get i).next ranges
      else .vacant (Int.ofNat i) ranges next
  | .vacant prevIndex ranges val, .lazy s =>
    match nextInRanges ranges val with
    | (next, ranges) =>
      if 0 ≤ prevIndex ∧ (s.get prevIndex.toNat).hasNext ∧
          (s.get (s.get prevIndex.toNat).next).val = next then
        .occupied (s.get prevIndex.toNat).next ranges
      else if !s.isEmpty ∧ (s.get s.minIndex).val = next then
        .occupied s.minIndex ranges
      else .vacant prevIndex ranges next
  | e, _ => e

/-- The storage of the direct (equality) encoding (`DirectStorage`):
an eager contiguous variable range sized `|domain| - 2`, or a lazy map
from value to oracle variable (the `HashMap` modelled as an
association list). -/
inductive DirectStorage where
  | eager (vars : VarRange)
  | lazy (map : List (Int × Nat))
deriving DecidableEq

/-- Lookup in the lazy direct map. -/
def lookupAssoc : List (Int × Nat) → Int → Option Nat
  | [], _ => none
  | (k, v) :: rest, i => if k = i then some v else lookupAssoc rest i

/-- The offset of the direct variable for `= i` in an eager range: the
loop of `DirectStorage::entry`/`find`, starting at `-1` to account for
the unencoded lower bound; `none` when `i` falls below or between the
ranges. -/
def directOffsetAux (offset : Int) : List (Int × Int) → Int → Option Int
  | [], _ => some offset
  | r :: rest, i =>
    if i < r.1 then none
    else if i ≤ r.2 then some (offset + (i - r.1))
    else directOffsetAux (offset + (r.2 - r.1 + 1)) rest i

/-- An entry of the direct storage (`DirectEntry`). -/
inductive DirectEntry where
  | occupied (bv : BoolViewI)
  | vacant (i : Int)
deriving DecidableEq

/-- `DirectStorage::entry`. -/
def DirectStorage.entry (ds : DirectStorage) (domain : List (Int × Int)) (i : Int) :
    DirectEntry :=
  match ds with
  | .eager vars =>
    match directOffsetAux (-1) domain i with
    | some off => .occupied (.lit ⟨vars.index off.toNat, false⟩)
    | none => .occupied (.const false)
  | .lazy map =>
    match lookupAssoc map i with
    | some v => .occupied (.lit ⟨v, false⟩)
    | none => if domContains domain i then .vacant i else .occupied (.const false)

/-- `DirectStorage::find`. -/
def DirectStorage.find (ds : DirectStorage) (domain : List (Int × Int)) (i : Int) :
    Option BoolViewI :=
  match ds with
  | .eager vars =>
    some (match directOffsetAux (-1) domain i with
      | some off => .lit ⟨vars.index off.toNat, false⟩
      | none => .const false)
  | .lazy map => (lookupAssoc map i).map (fun v => .lit ⟨v, false⟩)

/-- Insertion of a freshly created direct variable (the
`VacantEntry::insert` of `DirectEntry::or_insert_with`); only the
lazy storage has vacant entries. -/
def DirectStorage.insert (ds : DirectStorage) (i : Int) (v : Nat) : DirectStorage :=
  match ds with
  | .eager vars => .eager vars
  | .lazy map => .lazy (map ++ [(i, v)])

/-- An integer variable of the engine (`IntVar`): the direct and order
encodings, the initial domain, and the `TrailedInt` handle of the
current upper bound. -/
structure IntVar where
  directEncoding : DirectStorage
  domain : List (Int × Int)
  orderEncoding : OrderStorage
  upperBound : Nat
deriving DecidableEq

/-- `IntVar::normalize_lit_meaning`: replace `Eq`/`NotEq` at the
global bounds by the appropriate `Less` meaning, negate `NotEq` and
`GreaterEq` into their duals, and report whether the result must be
negated. -/
def IntVar.normalizeLitMeaning (_v : IntVar) (lit : LitMeaning) (lb ub : Int) :
    LitMeaning × Bool :=
  match lit with
  | .eq i =>
    if i = lb then (.less (lb + 1), false)
    else if i = ub then (.less ub, true)
    else (.eq i, false)
  | .notEq i =>
    if i = lb then (.less (lb + 1), true)
    else if i = ub then (.less ub, false)
    else (.eq i, true)
  | .greaterEq i => (.less i, true)
  | .less i => (.less i, false)

/-- The body of the `match` inside `IntVar::get_bool_lit` (the inner
`BoolView(match bv { ... })` block operating on the normalized
meaning): clamp `Less` outside the initial bounds to constants, look
up `Less` in the order storage, clamp `Eq` outside the bounds to
constant `false` and look up `Eq` in the direct storage.  The
`NotEq`/`GreaterEq` cases are `unreachable!` after normalization. -/
def IntVar.getBoolLitCore (v : IntVar) (bv : LitMeaning) (lb ub : Int) : Option BoolViewI :=
  match bv with
  | .less i =>
    if i ≤ lb then some (.const false)
    else if ub < i then some (.const true)
    else (v.orderEncoding.find v.domain i).map (fun x => .lit ⟨x, false⟩)
  | .eq i =>
    if i < lb ∨ ub < i then some (.const false)
    else v.directEncoding.find v.domain i
  | _ => none

/-- `IntVar::get_bool_lit`: find an existing Boolean literal with the
given meaning, without creating one.  The Rust code `unwrap`s the
domain bounds; an empty domain (never constructed) yields `none`. -/
def IntVar.getBoolLit (v : IntVar) (bv0 : LitMeaning) : Option BoolViewI :=
  match domLowerBound v.domain, domUpperBound v.domain with
  | some lb, some ub =>
    match v.normalizeLitMeaning bv0 lb ub with
    | (bv, negate) =>
      (v.getBoolLitCore bv lb ub).map (fun b => if negate then b.not else b)
  | _, _ => none

/-- The body of the `match` inside `IntVar::bool_lit` operating on the
normalized meaning: as `getBoolLitCore`, but looking up **or
creating** literals.  For `Less`, the order entry is resolved and a
fresh variable spliced in if absent; for `Eq`, a vacant direct entry
triggers the creation of the `Less(i)` and `Less(next)` order
literals followed by a fresh direct variable
(`new_var(LazyLitDef { meaning: Eq(i), .. })`). -/
def IntVar.boolLitCore (v : IntVar) (bv : LitMeaning) (lb ub : Int) (fresh : Nat) :
    BoolViewI × IntVar × Nat :=
  match bv with
  | .less i =>
    if i ≤ lb then (.const false, v, fresh)
    else if ub < i then (.const true, v, fresh)
    else
      match (v.orderEncoding.entry v.domain i).orInsertWith v.orderEncoding fresh with
      | (_, x, os, f2) => (.lit ⟨x, false⟩, { v with orderEncoding := os }, f2)
  | .eq i =>
    if i < lb ∨ ub < i then (.const false, v, fresh)
    else
      match v.directEncoding.entry v.domain i with
      | .occupied bvd => (bvd, v, fresh)
      | .vacant _ =>
        match (v.orderEncoding.entry v.domain i).orInsertWith v.orderEncoding fresh with
        | (e1, _, os1, f1) =>
          match (e1.nextValue os1).orInsertWith os1 f1 with
          | (_, _, os2, f2) =>
            (.lit ⟨f2, false⟩,
              { v with orderEncoding := os2,
                       directEncoding := v.directEncoding.insert i f2 },
              f2 + 1)
  | _ => (.const false, v, fresh)

/-- `IntVar::bool_lit`: access the Boolean literal with the given
meaning, creating it if needed.  Fresh oracle variables are drawn from
the counter `fresh`. -/
def IntVar.boolLit (v : IntVar) (bv0 : LitMeaning) (fresh : Nat) :
    BoolViewI × IntVar × Nat :=
  match domLowerBound v.domain, domUpperBound v.domain with
  | some lb, some ub =>
    match v.normalizeLitMeaning bv0 lb ub with
    | (bv, negate) =>
      match v.boolLitCore bv lb ub fresh with
      | (res, v2, f2) => (if negate then res.not else res, v2, f2)
  | _, _ => (.const false, v, fresh)

/-- Claim C4 (amended): at the boundaries, `get_bool_lit` returns
constants: `Less(v)` with `v ≤ lb` is constant FALSE (`x < v` cannot
hold when `x ≥ lb ≥ v`), `Less(v)` with `v > ub` is constant true;
dually `GreaterEq(v)` with `v ≤ lb` is constant true and
`GreaterEq(v)` with `v > ub` is constant false. -/
theorem get_bool_lit_boundary (v : IntVar) (lb ub val : Int)
    (hlb : domLowerBound v.domain = some lb) (hub : domUpperBound v.domain = some ub)
    (hwf : lb ≤ ub) :
    (val ≤ lb → v.getBoolLit (.less val) = some (.const false)) ∧
    (ub < val → v.getBoolLit (.less val) = some (.const true)) ∧
    (val ≤ lb → v.getBoolLit (.greaterEq val) = some (.const true)) ∧
    (ub < val → v.getBoolLit (.greaterEq val) = some (.const false)) := by
  have hn1 : v.normalizeLitMeaning (.less val) lb ub = (.less val, false) := rfl
  have hn2 : v.normalizeLitMeaning (.greaterEq val) lb ub = (.less val, true) := rfl
  refine ⟨?_, ?_, ?_, ?_⟩
  · intro h
    simp [IntVar.getBoolLit, hlb, hub, hn1, IntVar.getBoolLitCore, h]
  · intro h
    have h2 : ¬ val ≤ lb := by omega
    simp [IntVar.getBoolLit, hlb, hub, hn1, IntVar.getBoolLitCore, h, h2]
  · intro h
    simp [IntVar.getBoolLit, hlb, hub, hn2, IntVar.getBoolLitCore, h, BoolViewI.not]
  · intro h
    have h2 : ¬ val ≤ lb := by omega
    simp [IntVar.getBoolLit, hlb, hub, hn2, IntVar.getBoolLitCore, h, h2, BoolViewI.not]

/-- An eager integer variable with domain `1..=4`, order variables
`1..3` and direct variables `4..5` (the first test fixture of
`int_var.rs`). -/
def exIntVar : IntVar :=
  ⟨.eager ⟨4, 2⟩, [(1, 4)], .eager 0 ⟨1, 3⟩, 1⟩

/-- Witness for `get_bool_lit_boundary` on `exIntVar` (`lb = 1`,
`ub = 4`). -/
theorem get_bool_lit_boundary_witness :
    exIntVar.getBoolLit (.less 1) = some (.const false) ∧
      exIntVar.getBoolLit (.less 5) = some (.const true) ∧
      exIntVar.getBoolLit (.greaterEq 1) = some (.const true) ∧
      exIntVar.getBoolLit (.greaterEq 5) = some (.const false) :=
  ⟨(get_bool_lit_boundary exIntVar 1 4 1 rfl rfl (by decide)).1 (by decide),
   (get_bool_lit_boundary exIntVar 1 4 5 rfl rfl (by decide)).2.1 (by decide),
   (get_bool_lit_boundary exIntVar 1 4 1 rfl rfl (by decide)).2.2.1 (by decide),
   (get_bool_lit_boundary exIntVar 1 4 5 rfl rfl (by decide)).2.2.2 (by decide)⟩

/-- Claim C4, counterexample to the claim as stated: `Less(v)` with
`v ≤ lb` returns constant FALSE, not constant true (confirmed by the
`test_retrieve_lit` fixture in `int_var.rs`). -/
theorem get_bool_lit_less_at_lb_not_true :
    exIntVar.getBoolLit (.less 1) = some (.const false) ∧
      some (BoolViewI.const false) ≠ some (.const true) := by
  decide

/-- The `Less` branch of `bool_lit` neither consults nor modifies the
direct (equality) encoding: its result and order-storage effect are
the same for every direct storage, and the direct storage of the
resulting variable is exactly the incoming one. -/
theorem boolLitCore_less_shape (v : IntVar) (i lb ub : Int) (fresh : Nat) :
    ∃ res os f2,
      ∀ d : DirectStorage,
        IntVar.boolLitCore { v with directEncoding := d } (.less i) lb ub fresh =
          (res, { v with directEncoding := d, orderEncoding := os }, f2) := by
  by_cases h1 : i ≤ lb
  · exact ⟨.const false, v.orderEncoding, fresh, fun d => by
      simp [IntVar.boolLitCore, h1]⟩
  · by_cases h2 : ub < i
    · exact ⟨.const true, v.orderEncoding, fresh, fun d => by
        simp [IntVar.boolLitCore, h1, h2]⟩
    · obtain ⟨e, x, os, f2, hins⟩ :
          ∃ e x os f2,
            (v.orderEncoding.entry v.domain i).orInsertWith v.orderEncoding fresh =
              (e, x, os, f2) := by
        obtain ⟨e, x, os, f2⟩ :=
          (v.orderEncoding.entry v.domain i).orInsertWith v.orderEncoding fresh
        exact ⟨e, x, os, f2, rfl⟩
      exact ⟨.lit ⟨x, false⟩, os, f2, fun d => by
        simp [IntVar.boolLitCore, h1, h2, hins]⟩

/-- Claim C5: requesting `Eq(lb)` or `Eq(ub)` through `bool_lit` or
`get_bool_lit` is normalized to a single order (`Less`) literal —
`Eq(lb)` behaves exactly as `Less(lb+1)` and `Eq(ub)` as the negation
of `Less(ub)` with the same state effect — and never allocates or
consults an entry in the direct (equality) encoding storage: the
result is the same for every direct storage and the direct storage of
the resulting variable is unchanged. -/
theorem bool_lit_eq_at_bounds_single_order_lit (v : IntVar) (lb ub : Int) (fresh : Nat)
    (hlb : domLowerBound v.domain = some lb) (hub : domUpperBound v.domain = some ub)
    (hne : lb ≠ ub) :
    v.boolLit (.eq lb) fresh = v.boolLit (.less (lb + 1)) fresh ∧
    v.boolLit (.eq ub) fresh =
      (((v.boolLit (.less ub) fresh).1).not, (v.boolLit (.less ub) fresh).2) ∧
    (v.boolLit (.eq lb) fresh).2.1.directEncoding = v.directEncoding ∧
    (v.boolLit (.eq ub) fresh).2.1.directEncoding = v.directEncoding ∧
    (∀ d : DirectStorage,
      (IntVar.boolLit { v with directEncoding := d } (.eq lb) fresh).1 =
        (v.boolLit (.eq lb) fresh).1 ∧
      (IntVar.boolLit { v with directEncoding := d } (.eq ub) fresh).1 =
        (v.boolLit (.eq ub) fresh).1 ∧
      (IntVar.boolLit { v with directEncoding := d } (.eq lb) fresh).2.1.directEncoding
        = d) ∧
    v.getBoolLit (.eq lb) = v.getBoolLit (.less (lb + 1)) ∧
    v.getBoolLit (.eq ub) = (v.getBoolLit (.less ub)).map BoolViewI.not := by
  have hnlb : ∀ w : IntVar, IntVar.normalizeLitMeaning w (.eq lb) lb ub =
      (.less (lb + 1), false) := by
    intro w
    simp [IntVar.normalizeLitMeaning]
  have hnub : ∀ w : IntVar, IntVar.normalizeLitMeaning w (.eq ub) lb ub =
      (.less ub, true) := by
    intro w
    simp [IntVar.normalizeLitMeaning, Ne.symm hne]
  have hnl : ∀ (w : IntVar) (x : Int), IntVar.normalizeLitMeaning w (.less x) lb ub =
      (.less x, false) := fun w x => rfl
  obtain ⟨res1, os1, f1, hshape1⟩ := boolLitCore_less_shape v (lb + 1) lb ub fresh
  obtain ⟨res2, os2, f2, hshape2⟩ := boolLitCore_less_shape v ub lb ub fresh
  have heta : ({ v with directEncoding := v.directEncoding } : IntVar) = v := rfl
  have hcore1 : v.boolLitCore (.less (lb + 1)) lb ub fresh =
      (res1, { v with orderEncoding := os1 }, f1) := by
    have h := hshape1 v.directEncoding
    rw [heta] at h
    exact h
  have hcore2 : v.boolLitCore (.less ub) lb ub fresh =
      (res2, { v with orderEncoding := os2 }, f2) := by
    have h := hshape2 v.directEncoding
    rw [heta] at h
    exact h
  have hb1 : v.boolLit (.eq lb) fresh = (res1, { v with orderEncoding := os1 }, f1) := by
    simp [IntVar.boolLit, hlb, hub, hnlb, hcore1]
  have hb2 : v.boolLit (.less (lb + 1)) fresh =
      (res1, { v with orderEncoding := os1 }, f1) := by
    simp [IntVar.boolLit, hlb, hub, hnl, hcore1]
  have hb3 : v.boolLit (.eq ub) fresh =
      (res2.not, { v with orderEncoding := os2 }, f2) := by
    simp [IntVar.boolLit, hlb, hub, hnub, hcore2]
  have hb4 : v.boolLit (.less ub) fresh = (res2, { v with orderEncoding := os2 }, f2) := by
    simp [IntVar.boolLit, hlb, hub, hnl, hcore2]
  refine ⟨by rw [hb1, hb2], by rw [hb3, hb4], by rw [hb1], by rw [hb3], ?_, ?_, ?_⟩
  · intro d
    have hb1d : IntVar.boolLit { v with directEncoding := d } (.eq lb) fresh =
        (res1, { v with directEncoding := d, orderEncoding := os1 }, f1) := by
      simp [IntVar.boolLit, hlb, hub, hnlb, hshape1 d]
    have hb3d : IntVar.boolLit { v with directEncoding := d } (.eq ub) fresh =
        (res2.not, { v with directEncoding := d, orderEncoding := os2 }, f2) := by
      simp [IntVar.boolLit, hlb, hub, hnub, hshape2 d]
    exact ⟨by rw [hb1d, hb1], by rw [hb3d, hb3], by rw [hb1d]⟩
  · simp [IntVar.getBoolLit, hlb, hub, hnlb, hnl]
  · simp only [IntVar.getBoolLit, hlb, hub, hnub, hnl]
    rw [Option.map_map]
    rfl

/-- Witness for `bool_lit_eq_at_bounds_single_order_lit` on
`exIntVar` (`lb = 1`, `ub = 4`, fresh counter `6`). -/
theorem bool_lit_eq_at_bounds_witness :
    exIntVar.boolLit (.eq 1) 6 = exIntVar.boolLit (.less 2) 6 ∧
      exIntVar.getBoolLit (.eq 4) = (exIntVar.getBoolLit (.less 4)).map BoolViewI.not :=
  ⟨(bool_lit_eq_at_bounds_single_order_lit exIntVar 1 4 6 rfl rfl (by decide)).1,
   (bool_lit_eq_at_bounds_single_order_lit exIntVar 1 4 6 rfl rfl (by decide)).2.2.2.2.2.2⟩
